import Mathlib

/-
Verification development for the amulet state-space search engine.

The embedding follows src/mtg/state.py (the GameState record, the
transition library, the per-card handlers, the turn driver) and
src/mtg/manager.py (the per-trial summary bookkeeping).  The two helper
modules state.py imports, mana.py (the Mana value) and card.py (the Card
and Cards containers and the static card-attribute oracle), are not part
of the source excerpt; those pieces are modelled from the specification
(sections 3, 4.1, 4.2 and 6 of spec.md) and are marked as such below.

Conventions of the embedding:
  * cards are identified by their name string (the dispatch slug is an
    injective rename of the name, so tables are keyed by the name itself;
    the one name containing an apostrophe is written without it);
  * GameStates (a Python set of states) is a Finset of the state record;
  * operations that can only raise through a missing mandatory handler
    return `Option (Finset GameState)`, with `none` standing for the
    AttributeError; all other operations are total;
  * note strings are kept as appended markers but their exact rendering
    (which lived in the missing card.py / mana.py pretty-printers) is
    abbreviated; no equality or hash looks at notes.
-/

namespace AmuletModel

/-- Modelled from the spec: the Mana value of mana.py (spec section 3 and
4.1), a vector over the five colors W,U,B,R,G plus a generic component. -/
structure Mana where
  w : Nat
  u : Nat
  b : Nat
  r : Nat
  g : Nat
  gen : Nat
deriving DecidableEq, Repr

instance : Add Mana :=
  ⟨fun a c => ⟨a.w + c.w, a.u + c.u, a.b + c.b, a.r + c.r, a.g + c.g, a.gen + c.gen⟩⟩

def Mana.zero : Mana := ⟨0, 0, 0, 0, 0, 0⟩

def Mana.total (m : Mana) : Nat := m.w + m.u + m.b + m.r + m.g + m.gen

/-- Modelled from the spec: all ways to allocate `k` generic units across a
list of component capacities (spec section 4.1: "enumerate every multiset
assignment of g units across the colors present in the remaining pool"). -/
def splits : Nat → List Nat → List (List Nat)
  | k, [] => if k = 0 then [[]] else []
  | k, c :: cs =>
      (List.range (min c k + 1)).flatMap fun a => (splits (k - a) cs).map (a :: ·)

/-- Modelled from the spec: Mana.minus of mana.py (spec section 4.1).
Subtract the colored components, failing (empty set) if any goes negative,
then enumerate every allocation of the generic portion of the cost across
the remaining components; return the set of residues. -/
def Mana.minus (pool cost : Mana) : Finset Mana :=
  if cost.w ≤ pool.w ∧ cost.u ≤ pool.u ∧ cost.b ≤ pool.b ∧
     cost.r ≤ pool.r ∧ cost.g ≤ pool.g then
    let rw := pool.w - cost.w
    let ru := pool.u - cost.u
    let rb := pool.b - cost.b
    let rr := pool.r - cost.r
    let rg := pool.g - cost.g
    ((splits cost.gen [rw, ru, rb, rr, rg, pool.gen]).map fun a =>
      match a with
      | [aw, au, ab, ar, ag, an] =>
          (⟨rw - aw, ru - au, rb - ab, rr - ar, rg - ag, pool.gen - an⟩ : Mana)
      | _ => (⟨rw, ru, rb, rr, rg, pool.gen⟩ : Mana)).toFinset
  else ∅

/-- Modelled from the spec: `pool >= cost` holds iff the legal payment set
is non-empty (spec section 4.1). -/
def Mana.ge (pool cost : Mana) : Prop := (Mana.minus pool cost).Nonempty

instance (pool cost : Mana) : Decidable (Mana.ge pool cost) :=
  inferInstanceAs (Decidable (Mana.minus pool cost).Nonempty)

/-- Card names are plain strings; the card value carries only its
identifier (spec section 3). -/
abbrev CardN := String

/-- Enters-tapped attribute: a boolean or the literal sentinel "check"
(spec section 3). -/
inductive ETap where
  | yes
  | no
  | check
deriving DecidableEq, Repr

/-- Static card attributes resolved through the oracle (spec sections 3
and 6): cost, cycle cost, sacrifice cost, types, taps_for options,
enters_tapped, dies flag, color and kind flags. -/
structure CardInfo where
  cost : Option Mana
  cycle_cost : Option Mana
  sacrifice_cost : Option Mana
  types : List String
  taps_for : List Mana
  enters_tapped : ETap
  dies : Bool
  is_green : Bool
  is_creature : Bool
  is_colorless : Bool
deriving DecidableEq, Repr

def mG : Mana := ⟨0, 0, 0, 0, 1, 0⟩

def mGG : Mana := ⟨0, 0, 0, 0, 2, 0⟩

def mU : Mana := ⟨0, 1, 0, 0, 0, 0⟩

def mR : Mana := ⟨0, 0, 0, 1, 0, 0⟩

def mW : Mana := ⟨1, 0, 0, 0, 0, 0⟩

def mB : Mana := ⟨0, 0, 1, 0, 0, 0⟩

def m1 : Mana := ⟨0, 0, 0, 0, 0, 1⟩

def mGU : Mana := ⟨0, 1, 0, 0, 1, 0⟩

def mRW : Mana := ⟨1, 0, 0, 1, 0, 0⟩

def mGW : Mana := ⟨1, 0, 0, 0, 1, 0⟩

def m1G : Mana := ⟨0, 0, 0, 0, 1, 1⟩

def m2G : Mana := ⟨0, 0, 0, 0, 1, 2⟩

def m1GG : Mana := ⟨0, 0, 0, 0, 2, 1⟩

def m2GG : Mana := ⟨0, 0, 0, 0, 2, 2⟩

def m1R : Mana := ⟨0, 0, 0, 1, 0, 1⟩

def m4R : Mana := ⟨0, 0, 0, 1, 0, 4⟩

def m1GU : Mana := ⟨0, 1, 0, 0, 1, 1⟩

def m1UU : Mana := ⟨0, 2, 0, 0, 0, 1⟩

def mRRR : Mana := ⟨0, 0, 0, 3, 0, 0⟩

def m6G : Mana := ⟨0, 0, 0, 0, 6, 0⟩

def landInfo (taps : List Mana) (et : ETap) : CardInfo :=
  ⟨none, none, none, ["land"], taps, et, false, false, false, true⟩

def creatureInfo (cost : Mana) (green : Bool) (dies : Bool) : CardInfo :=
  ⟨some cost, none, none, ["creature"], [], ETap.no, dies, green, true, false⟩

def spellInfo (cost : Mana) (kinds : List String) : CardInfo :=
  ⟨some cost, none, none, kinds, [], ETap.no, false, false, false, false⟩

def noCard : CardInfo :=
  ⟨none, none, none, [], [], ETap.no, false, false, false, false⟩

/-- Modelled from the spec: the read-only card-attribute oracle (spec
sections 2, 4.2 and 6).  The card data file is an external collaborator
not included in the source excerpt; the entries below cover the cards
whose handlers appear in state.py, with behavioral fields chosen to match
the printed cards the handlers implement.  "Summoners Pact" and "Uro,
Titan of Natures Wrath" are written without the apostrophe of their
printed names; "Devoted Druid" is the card the spec's open questions flag
as referenced by a handler without a complete oracle entry — it has a
mana cost but no cast handler, and its sacrifice handler body is broken
in the source (it calls an undefined method), which the embedding models
as a missing handler.  "Lonely Sandbar" is a cycling land with no
additional cycle handler, the no-op per-card effect of the spec's
safe-dispatch rule. -/
def oracle : CardN → CardInfo
  | "Forest" => landInfo [mG] ETap.no
  | "Simic Growth Chamber" => landInfo [mGU] ETap.yes
  | "Boros Garrison" => landInfo [mRW] ETap.yes
  | "Selesnya Sanctuary" => landInfo [mGW] ETap.yes
  | "Lotus Field" => landInfo [mG] ETap.yes
  | "Castle Garenbrig" => landInfo [mG] ETap.check
  | "Crumbling Vestige" => landInfo [m1] ETap.yes
  | "Temple of Mystery" => landInfo [mG, mU] ETap.yes
  | "Zhalfirin Void" => landInfo [m1] ETap.no
  | "Tranquil Thicket" =>
      ⟨none, some m1, none, ["land"], [mG], ETap.yes, false, false, false, true⟩
  | "Ketria Triome" =>
      ⟨none, some ⟨0, 0, 0, 0, 0, 3⟩, none, ["land"], [mG, mU, mR], ETap.yes,
        false, false, false, true⟩
  | "Tolaria West" =>
      ⟨none, some m1UU, none, ["land"], [mU], ETap.yes, false, false, false, true⟩
  | "Lonely Sandbar" =>
      ⟨none, some m1, none, ["land"], [mU], ETap.yes, false, false, false, true⟩
  | "Gemstone Caverns" => landInfo [m1] ETap.no
  | "Gemstone Mine" => landInfo [mW, mU, mB, mR, mG] ETap.no
  | "Amulet of Vigor" =>
      ⟨some ⟨0, 0, 0, 0, 0, 2⟩, none, none, ["artifact"], [], ETap.no,
        false, false, false, true⟩
  | "Relic of Progenitus" =>
      ⟨some m1, none, some Mana.zero, ["artifact"], [], ETap.no,
        false, false, false, true⟩
  | "Adventurous Impulse" => spellInfo mG ["sorcery"]
  | "Ancient Stirrings" => spellInfo mG ["sorcery"]
  | "Arboreal Grazer" => creatureInfo mG true false
  | "Azusa, Lost but Seeking" => creatureInfo m1GG true true
  | "Beneath the Sands" =>
      ⟨some m2G, some m1, none, ["sorcery"], [], ETap.no, false, false, false, false⟩
  | "Bond of Flourishing" => spellInfo m2G ["sorcery"]
  | "Debug Titan" => creatureInfo Mana.zero true false
  | "Dryad of the Ilysian Grove" => creatureInfo m2G true true
  | "Elvish Rejuvenator" => creatureInfo m2G true true
  | "Explore" => spellInfo m1G ["sorcery"]
  | "Growth Spiral" => spellInfo mGU ["instant"]
  | "Llanowar Visionary" => creatureInfo m2G true true
  | "Oath of Nissa" => spellInfo mG ["enchantment"]
  | "Once Upon a Time" =>
      ⟨some m1G, some Mana.zero, none, ["instant"], [], ETap.no,
        false, false, false, false⟩
  | "Opt" => spellInfo mU ["instant"]
  | "Primeval Titan" => creatureInfo m2GG true false
  | "Pyretic Ritual" => spellInfo m1R ["instant"]
  | "Sakura-Tribe Elder" => creatureInfo m1G true false
  | "Sakura-Tribe Scout" => creatureInfo mG true true
  | "Search for Tomorrow" =>
      ⟨some m2G, some mG, none, ["sorcery"], [], ETap.no, false, false, false, false⟩
  | "Simian Spirit Guide" =>
      ⟨some m2G, some Mana.zero, none, ["creature"], [], ETap.no,
        false, false, true, false⟩
  | "Summer Bloom" => spellInfo m1G ["sorcery"]
  | "Summoners Pact" => spellInfo Mana.zero ["instant"]
  | "Through the Breach" => spellInfo m4R ["instant"]
  | "Uro, Titan of Natures Wrath" => creatureInfo m1GU true true
  | "Devoted Druid" =>
      ⟨some m1G, none, some Mana.zero, ["creature"], [], ETap.no,
        true, true, true, false⟩
  | _ => noCard

def isLand (c : CardN) : Bool := "land" ∈ (oracle c).types

def isCreature (c : CardN) : Bool := (oracle c).is_creature

def isGreen (c : CardN) : Bool := (oracle c).is_green

def isColorless (c : CardN) : Bool := (oracle c).is_colorless

def isForest (c : CardN) : Bool := c = "Forest"

def isPermanent (c : CardN) : Bool :=
  ((oracle c).types.filter fun t =>
    t = "land" ∨ t = "creature" ∨ t = "artifact" ∨ t = "enchantment" ∨
      t = "planeswalker") ≠ []

/-- Modelled from the spec: "zeros() meaning zero-mana cards" (spec
section 3); lands carry no printed cost and count as zero-mana. -/
def isZero (c : CardN) : Bool :=
  match (oracle c).cost with
  | some m => m.total = 0
  | none => isLand c

/-- Lexicographic comparison of char lists by code point (an executable
total order used only to pick canonical iteration orders). -/
def lexLe : List Char → List Char → Bool
  | [], _ => true
  | _ :: _, [] => false
  | a :: as, c :: cs =>
      if a.toNat < c.toNat then true
      else if c.toNat < a.toNat then false
      else lexLe as cs

def lexLe_total (l₁ l₂ : List Char) : lexLe l₁ l₂ = true ∨ lexLe l₂ l₁ = true := by
  induction l₁ generalizing l₂ with
  | nil => left; rfl
  | cons a as ih =>
      cases l₂ with
      | nil => right; rfl
      | cons c cs =>
          by_cases h1 : a.toNat < c.toNat
          · left; simp [lexLe, h1]
          · by_cases h2 : c.toNat < a.toNat
            · right; simp [lexLe, h2]
            · rcases ih cs with h | h
              · left; simpa [lexLe, h1, h2] using h
              · right; simpa [lexLe, h1, h2] using h

def char_toNat_inj {a c : Char} (h : a.toNat = c.toNat) : a = c :=
  Char.eq_of_val_eq (UInt32.ext h)

def lexLe_antisymm (l₁ l₂ : List Char) (h1 : lexLe l₁ l₂ = true)
    (h2 : lexLe l₂ l₁ = true) : l₁ = l₂ := by
  induction l₁ generalizing l₂ with
  | nil =>
      cases l₂ with
      | nil => rfl
      | cons c cs => simp [lexLe] at h2
  | cons a as ih =>
      cases l₂ with
      | nil => simp [lexLe] at h1
      | cons c cs =>
          by_cases hac : a.toNat < c.toNat
          · simp [lexLe, hac, Nat.lt_asymm hac] at h2
          · by_cases hca : c.toNat < a.toNat
            · simp [lexLe, hac, hca] at h1
            · have : a = c := char_toNat_inj (Nat.le_antisymm (Nat.not_lt.mp hca) (Nat.not_lt.mp hac))
              subst this
              simp [lexLe, hac] at h1 h2
              rw [ih cs h1 h2]

def lexLe_trans (l₁ l₂ l₃ : List Char) (h1 : lexLe l₁ l₂ = true)
    (h2 : lexLe l₂ l₃ = true) : lexLe l₁ l₃ = true := by
  induction l₁ generalizing l₂ l₃ with
  | nil => rfl
  | cons a as ih =>
      cases l₂ with
      | nil => simp [lexLe] at h1
      | cons b bs =>
          cases l₃ with
          | nil => simp [lexLe] at h2
          | cons c cs =>
              by_cases hab : a.toNat < b.toNat
              · by_cases hbc : b.toNat < c.toNat
                · simp [lexLe, Nat.lt_trans hab hbc]
                · by_cases hcb : c.toNat < b.toNat
                  · simp [lexLe, hbc, hcb] at h2
                  · have : b.toNat = c.toNat := Nat.le_antisymm (Nat.not_lt.mp hcb) (Nat.not_lt.mp hbc)
                    simp [lexLe, this ▸ hab]
              · by_cases hba : b.toNat < a.toNat
                · simp [lexLe, hab, hba] at h1
                · have hab2 : a.toNat = b.toNat := Nat.le_antisymm (Nat.not_lt.mp hba) (Nat.not_lt.mp hab)
                  simp [lexLe, hab, hba] at h1
                  by_cases hbc : b.toNat < c.toNat
                  · simp [lexLe, hab2 ▸ hbc]
                  · by_cases hcb : c.toNat < b.toNat
                    · simp [lexLe, hbc, hcb] at h2
                    · simp [lexLe, hbc, hcb] at h2
                      simp [lexLe, hab2 ▸ hbc, hab2 ▸ hcb, ih bs cs h1 h2]

/-- Name order on cards (kernel-executable, unlike the byte-iterator
comparison of core strings). -/
def sLe (a c : CardN) : Prop := lexLe a.data c.data = true

instance : DecidableRel sLe := fun _ _ => inferInstanceAs (Decidable (_ = true))

instance : IsTotal CardN sLe := ⟨fun a c => lexLe_total a.data c.data⟩

instance : IsTrans CardN sLe := ⟨fun a b c => lexLe_trans a.data b.data c.data⟩

instance : IsAntisymm CardN sLe :=
  ⟨fun a c h1 h2 => by
    have := lexLe_antisymm a.data c.data h1 h2
    cases a; cases c; exact congrArg String.mk this⟩

def insertionSort_perm_inv (l₁ l₂ : List CardN) (h : l₁.Perm l₂) :
    List.insertionSort sLe l₁ = List.insertionSort sLe l₂ :=
  List.eq_of_perm_of_sorted
    (((List.perm_insertionSort _ l₁).trans h).trans (List.perm_insertionSort _ l₂).symm)
    (List.sorted_insertionSort _ l₁)
    (List.sorted_insertionSort _ l₂)

/-- Deterministic enumeration of a card multiset in name order (Python
iterates its containers in an arbitrary order; every use below is
order-independent, so a canonical order is a faithful determinization). -/
def msort (m : Multiset CardN) : List CardN :=
  Quotient.liftOn m (fun l => List.insertionSort sLe l) insertionSort_perm_inv

/-- Modelled from the spec: the "best" selector returns a canonicalized
one-element selection representing the oracle-preferred choice (spec
sections 3 and 4.2; the concrete ordering is oracle data, here the least
name in string order). -/
def bestOf (m : Multiset CardN) : Multiset CardN :=
  match msort m.dedup with
  | [] => 0
  | x :: _ => {x}

def selBest (best : Bool) (m : Multiset CardN) : Multiset CardN :=
  if best then bestOf m else m

/-- Filtered view lands() of the Cards container (spec section 3). -/
def lands (best : Bool) (m : Multiset CardN) : Multiset CardN :=
  selBest best (m.filter fun c => isLand c = true)

/-- Filtered view green_creatures() of the Cards container. -/
def green_creatures (m : Multiset CardN) : Multiset CardN :=
  m.filter fun c => isGreen c = true ∧ isCreature c = true

/-- Filtered view forests() of the Cards container. -/
def forests (m : Multiset CardN) : Multiset CardN :=
  m.filter fun c => isForest c = true

/-- Filtered view colorless() of the Cards container. -/
def colorless (best : Bool) (m : Multiset CardN) : Multiset CardN :=
  selBest best (m.filter fun c => isColorless c = true)

/-- Filtered view permanents() of the Cards container. -/
def permanents (best : Bool) (m : Multiset CardN) : Multiset CardN :=
  selBest best (m.filter fun c => isPermanent c = true)

/-- Filtered view creatures_lands() of the Cards container. -/
def creatures_lands (best : Bool) (m : Multiset CardN) : Multiset CardN :=
  selBest best (m.filter fun c => isCreature c = true ∨ isLand c = true)

/-- Filtered view zeros() of the Cards container. -/
def zeros (m : Multiset CardN) : Multiset CardN :=
  m.filter fun c => isZero c = true

/-- The immutable GameState record of state.py.  Hand and battlefield are
card multisets (the Cards container compares as a multiset); the deck
list keeps its order because the deck cursor slices it.  The tracked
fields are exactly the namedtuple fields of GAME_STATE_DEFAULTS. -/
structure GameState where
  battlefield : Multiset CardN
  deck_index : Nat
  deck_list : List CardN
  done : Bool
  hand : Multiset CardN
  land_drops : Nat
  mana_debt : Mana
  mana_pool : Mana
  notes : String
  on_the_play : Bool
  overflowed : Bool
  spells_cast : Nat
  suspended : List (CardN × Nat)
  turn : Nat
deriving DecidableEq

/-- A GameStates value: a set of GameState records. -/
abbrev SSet := Finset GameState

/-- Batch application of a total transition over a state set
(GameStates.__getattr__ forwarding plus set union). -/
def appS (ss : SSet) (f : GameState → SSet) : SSet := ss.biUnion f

/-- Batch application of a transition that can raise: in Python the
AttributeError escapes whichever member it hits, so the whole application
fails iff the transition fails on some member (iteration order does not
matter for failure-or-not, and the union is order-independent). -/
def appO (ss : SSet) (f : GameState → Option SSet) : Option SSet :=
  if ∀ t ∈ ss, (f t).isSome then some (ss.biUnion fun t => (f t).getD ∅) else none

/-- Union of a list of branch results where any raising branch makes the
whole expansion raise. -/
def unionO (l : List (Option SSet)) : Option SSet :=
  if ∀ o ∈ l, o.isSome then some (l.foldl (fun acc o => acc ∪ o.getD ∅) ∅) else none

/-- GameState.top: peek the next n cards of the deck. -/
def top (n : Nat) (s : GameState) : List CardN :=
  (s.deck_list.drop s.deck_index).take n

/-- GameState.draw: advance the deck cursor by n and append those cards
to the hand. -/
def draw (n : Nat) (s : GameState) : GameState :=
  { s with
    deck_index := s.deck_index + n,
    hand := s.hand + Multiset.ofList (top n s),
    notes := s.notes ++ ", draw" }

/-- GameState.mill: advance the deck cursor by n without drawing. -/
def mill (n : Nat) (s : GameState) : GameState :=
  { s with deck_index := s.deck_index + n, notes := s.notes ++ ", mill" }

/-- GameState.grab: move a card into the hand by identity (the deck list
and cursor are untouched). -/
def grab (c : CardN) (s : GameState) : GameState :=
  { s with hand := c ::ₘ s.hand, notes := s.notes ++ ", grab" }

/-- GameState.grabs: one branch per distinct grab choice. -/
def grabs (cards : Multiset CardN) (s : GameState) : SSet :=
  cards.toFinset.image fun c => grab c s

/-- GameState.note: append to the narrative trace only. -/
def noteF (txt : String) (s : GameState) : GameState :=
  { s with notes := s.notes ++ txt }

/-- GameState.add_mana. -/
def add_mana (m : Mana) (s : GameState) : GameState :=
  { s with mana_pool := s.mana_pool + m, notes := s.notes ++ ", add mana" }

/-- GameState.suspend: append a (card, counter) entry. -/
def suspendF (c : CardN) (n : Nat) (s : GameState) : GameState :=
  { s with suspended := s.suspended ++ [(c, n)] }

/-- GameState.pay: one state per residue of the mana algebra; empty if
the cost is unpayable. -/
def payF (cost : Mana) (s : GameState) : SSet :=
  (Mana.minus s.mana_pool cost).image fun m =>
    { s with mana_pool := m, notes := s.notes ++ ", pay" }

/-- GameState.tap: one state per taps_for option; the input unchanged
when the card taps for nothing. -/
def tapF (c : CardN) (s : GameState) : SSet :=
  let os := (oracle c).taps_for
  if os = [] then {s}
  else (os.map fun m =>
    { s with mana_pool := s.mana_pool + m, notes := s.notes ++ ", tap" }).toFinset

/-- GameState.tap_out: accumulate every achievable pool by combining each
battlefield card's taps_for options (cards with no taps_for are skipped);
one state per distinct final pool. -/
def tap_out (s : GameState) : SSet :=
  let pools :=
    (msort s.battlefield).foldl
      (fun ps c =>
        let os := (oracle c).taps_for
        if os = [] then ps
        else ps.biUnion fun p => (os.map (p + ·)).toFinset)
      ({s.mana_pool} : Finset Mana)
  pools.image fun p => { s with mana_pool := p, notes := s.notes ++ ", tap out" }

/-- GameState.scry for n = 1: mill the top card or leave it. -/
def scry1 (s : GameState) : SSet :=
  insert (mill 1 s) ({ noteF ", leave" s } : SSet)

/-- GameState.bounce_land: one state per land on the battlefield, that
land returned to the hand. -/
def bounce_land (s : GameState) : SSet :=
  (s.battlefield.filter fun c => isLand c = true).toFinset.image fun c =>
    { s with
      battlefield := s.battlefield.erase c,
      hand := c ::ₘ s.hand,
      notes := s.notes ++ ", bounce" }

/-- GameState.pitch: one state per n-combination of the options. -/
def pitch (n : Nat) (options : Multiset CardN) (s : GameState) : SSet :=
  (options.powersetCard n).toFinset.image fun cs =>
    { s with hand := s.hand - cs, notes := s.notes ++ ", discard" }

/-- Handler play_boros_garrison. -/
def play_boros_garrison (s : GameState) : SSet := bounce_land s

/-- Handler play_crumbling_vestige. -/
def play_crumbling_vestige (s : GameState) : SSet := {add_mana mG s}

/-- Handler play_lotus_field: sacrifice a choice of two lands, or every
land when at most two are in play. -/
def play_lotus_field (s : GameState) : SSet :=
  let landsBf := s.battlefield.filter fun c => isLand c = true
  if 2 < Multiset.card landsBf then
    (landsBf.powersetCard 2).toFinset.image fun ts =>
      { s with battlefield := s.battlefield - ts, notes := s.notes ++ ", sacrifice" }
  else
    { ({ s with
          battlefield := s.battlefield - landsBf,
          notes := s.notes ++ ", sacrifice" } : GameState) }

/-- Handler play_selesnya_sanctuary. -/
def play_selesnya_sanctuary (s : GameState) : SSet := bounce_land s

/-- Handler play_simic_growth_chamber. -/
def play_simic_growth_chamber (s : GameState) : SSet := bounce_land s

/-- Handler play_temple_of_mystery. -/
def play_temple_of_mystery (s : GameState) : SSet := scry1 s

/-- Handler play_zhalfirin_void. -/
def play_zhalfirin_void (s : GameState) : SSet := scry1 s

/-- The optional play_<slug> handler table (spec section 9: optional
tables feed the safe-dispatch rule). -/
def playHandlers : List (CardN × (GameState → SSet)) :=
  [("Boros Garrison", play_boros_garrison),
   ("Crumbling Vestige", play_crumbling_vestige),
   ("Lotus Field", play_lotus_field),
   ("Selesnya Sanctuary", play_selesnya_sanctuary),
   ("Simic Growth Chamber", play_simic_growth_chamber),
   ("Temple of Mystery", play_temple_of_mystery),
   ("Zhalfirin Void", play_zhalfirin_void)]

/-- Safe dispatch at the state-set level (GameStates.safe_getattr): the
current set unchanged when no handler exists. -/
def safe_getattr (h : Option (GameState → SSet)) (ss : SSet) : SSet :=
  match h with
  | none => ss
  | some f => appS ss f

/-- Unsafe dispatch: a missing mandatory handler is an AttributeError. -/
def unsafe_getattr (h : Option (GameState → SSet)) (ss : SSet) : Option SSet :=
  match h with
  | none => none
  | some f => some (appS ss f)

/-- GameState.play_tapped: move the card to the battlefield, grant one
tap per Amulet of Vigor already in play, then safe-dispatch the optional
play handler. -/
def play_tapped (c : CardN) (s : GameState) : SSet :=
  let st : GameState :=
    { s with battlefield := c ::ₘ s.battlefield, hand := s.hand.erase c }
  let tapped :=
    (List.range (s.battlefield.count "Amulet of Vigor")).foldl
      (fun ss _ => appS ss (tapF c)) ({st} : SSet)
  safe_getattr (playHandlers.lookup c) tapped

/-- GameState.play_untapped: move the card to the battlefield, tap it,
then safe-dispatch the optional play handler. -/
def play_untapped (c : CardN) (s : GameState) : SSet :=
  let st : GameState :=
    { s with battlefield := c ::ₘ s.battlefield, hand := s.hand.erase c }
  safe_getattr (playHandlers.lookup c) (tapF c st)

/-- GameState.fetch: put the card in hand from outside the deck, then
play it (tapped when forced or when the card enters tapped; the literal
"check" sentinel is truthy here, as in the source). -/
def fetchF (c : CardN) (tapped : Option Bool) (s : GameState) : SSet :=
  let st : GameState := { s with hand := c ::ₘ s.hand, notes := s.notes ++ ", fetch" }
  if tapped.getD false || ((oracle c).enters_tapped ≠ ETap.no) then
    play_tapped c st
  else
    play_untapped c st

/-- Handler check_castle_garenbrig: enters untapped iff a Forest is in
play or a Dryad of the Ilysian Grove is in play. -/
def check_castle_garenbrig (s : GameState) : Bool :=
  if forests s.battlefield ≠ 0 then false
  else !("Dryad of the Ilysian Grove" ∈ s.battlefield)

/-- The optional check_<slug> handler table. -/
def checkHandlers : List (CardN × (GameState → Bool)) :=
  [("Castle Garenbrig", check_castle_garenbrig)]

/-- GameState.play: lands only (a nonland raises); requires a land drop
and the card in hand, else the empty set; routes to play_tapped or
play_untapped through the enters_tapped attribute or the card-specific
check handler. -/
def playE (c : CardN) (s : GameState) : Option SSet :=
  if "land" ∉ (oracle c).types then none
  else if s.land_drops = 0 ∨ c ∉ s.hand then some ∅
  else
    let st : GameState :=
      { s with notes := s.notes ++ ", play", land_drops := s.land_drops - 1 }
    match (oracle c).enters_tapped with
    | ETap.check =>
        match checkHandlers.lookup c with
        | none => none
        | some chk => some (if chk s then play_tapped c st else play_untapped c st)
    | ETap.yes => some (play_tapped c st)
    | ETap.no => some (play_untapped c st)

/-- GameState.have. -/
def haveF (c : CardN) (s : GameState) : Prop := c ∈ s.hand ∨ c ∈ s.battlefield

instance (c : CardN) (s : GameState) : Decidable (haveF c s) :=
  inferInstanceAs (Decidable (c ∈ s.hand ∨ c ∈ s.battlefield))

/-- Handler cast_amulet_of_vigor. -/
def cast_amulet_of_vigor (s : GameState) : SSet :=
  { ({ s with battlefield := "Amulet of Vigor" ::ₘ s.battlefield } : GameState) }

/-- Handler cast_ancient_stirrings. -/
def cast_ancient_stirrings (s : GameState) : SSet :=
  grabs (colorless true (Multiset.ofList (top 5 s))) (mill 5 s)

/-- Handler cast_arboreal_grazer: play one land from hand tapped; empty
when no land is in hand. -/
def cast_arboreal_grazer (s : GameState) : SSet :=
  (s.hand.filter fun c => isLand c = true).toFinset.biUnion fun c => play_tapped c s

/-- Handler cast_azusa_lost_but_seeking: legend rule, then two extra land
drops. -/
def cast_azusa_lost_but_seeking (s : GameState) : SSet :=
  if "Azusa, Lost but Seeking" ∈ s.battlefield then ∅
  else
    { ({ s with
          battlefield := "Azusa, Lost but Seeking" ::ₘ s.battlefield,
          land_drops := s.land_drops + 2 } : GameState) }

/-- Handler cast_bond_of_flourishing. -/
def cast_bond_of_flourishing (s : GameState) : SSet :=
  grabs (permanents true (Multiset.ofList (top 3 s))) (mill 3 s)

/-- Handler cast_debug_titan: the debug goal flag. -/
def cast_debug_titan (s : GameState) : SSet :=
  { ({ s with done := true } : GameState) }

/-- Handler cast_dryad_of_the_ilysian_grove. -/
def cast_dryad_of_the_ilysian_grove (s : GameState) : SSet :=
  { ({ s with
        battlefield := "Dryad of the Ilysian Grove" ::ₘ s.battlefield,
        land_drops := s.land_drops + 1 } : GameState) }

/-- Handler cast_elvish_rejuvenator: mill five, grab the preferred land
among them and play it tapped. -/
def cast_elvish_rejuvenator (s : GameState) : SSet :=
  (lands true (Multiset.ofList (top 5 s))).toFinset.biUnion fun l =>
    play_tapped l (grab l (mill 5 s))

/-- Handler cast_explore. -/
def cast_explore (s : GameState) : SSet :=
  { draw 1 ({ s with land_drops := s.land_drops + 1 } : GameState) }

/-- Handler cast_llanowar_visionary. -/
def cast_llanowar_visionary (s : GameState) : SSet :=
  { draw 1 ({ s with battlefield := "Llanowar Visionary" ::ₘ s.battlefield } : GameState) }

/-- Handler cast_oath_of_nissa (also Adventurous Impulse). -/
def cast_oath_of_nissa (s : GameState) : SSet :=
  grabs (creatures_lands true (Multiset.ofList (top 3 s))) (mill 3 s)

/-- Handler cast_once_upon_a_time. -/
def cast_once_upon_a_time (s : GameState) : SSet :=
  grabs (creatures_lands true (Multiset.ofList (top 5 s))) (mill 5 s)

/-- Handler cast_opt. -/
def cast_opt (s : GameState) : SSet := (scry1 s).image (draw 1)

/-- Handler cast_primeval_titan: the goal flag. -/
def cast_primeval_titan (s : GameState) : SSet :=
  { ({ s with done := true } : GameState) }

/-- Handler cast_pyretic_ritual. -/
def cast_pyretic_ritual (s : GameState) : SSet := {add_mana mRRR s}

/-- Handler cast_relic_of_progenitus. -/
def cast_relic_of_progenitus (s : GameState) : SSet :=
  { ({ s with battlefield := "Relic of Progenitus" ::ₘ s.battlefield } : GameState) }

/-- Handler cast_sakura_tribe_elder (also Beneath the Sands): fetch a
Forest tapped. -/
def cast_sakura_tribe_elder (s : GameState) : SSet :=
  fetchF "Forest" (some true) s

/-- Handler cast_sakura_tribe_scout. -/
def cast_sakura_tribe_scout (s : GameState) : SSet :=
  { ({ s with battlefield := "Sakura-Tribe Scout" ::ₘ s.battlefield } : GameState) }

/-- Handler cast_search_for_tomorrow: fetch a Forest untapped. -/
def cast_search_for_tomorrow (s : GameState) : SSet := fetchF "Forest" none s

/-- Handler cast_summer_bloom. -/
def cast_summer_bloom (s : GameState) : SSet :=
  { ({ s with land_drops := s.land_drops + 3 } : GameState) }

/-- Handler cast_summoners_pact: grab a green creature from the deck list
(skipping copies in hand, a second Azusa, and non-Titans when no Amulet
is around), then owe 2GG at the next upkeep. -/
def cast_summoners_pact (s : GameState) : SSet :=
  let choices :=
    (green_creatures (Multiset.ofList s.deck_list)).toFinset.filter fun c =>
      c ∉ s.hand ∧
      ¬(c = "Azusa, Lost but Seeking" ∧ "Azusa, Lost but Seeking" ∈ s.battlefield) ∧
      (haveF "Amulet of Vigor" s ∨ c = "Primeval Titan")
  (choices.image fun c => grab c s).image fun t =>
    { t with mana_debt := t.mana_debt + m2GG }

/-- Handler cast_through_the_breach: the goal, but only with a Primeval
Titan in hand. -/
def cast_through_the_breach (s : GameState) : SSet :=
  if "Primeval Titan" ∉ s.hand then ∅
  else { ({ s with done := true } : GameState) }

/-- Handler cast_uro_titan_of_natures_wrath: draw one, then play any land
from the new hand (this one dispatches through GameState.play and so can
raise in principle). -/
def cast_uro (s : GameState) : Option SSet :=
  let st := draw 1 s
  unionO ((msort (lands false st.hand).dedup).map fun l => playE l st)

/-- The mandatory cast_<slug> handler table.  Every handler is wrapped as
possibly-raising because cast_uro routes through GameState.play. -/
def castHandlers : List (CardN × (GameState → Option SSet)) :=
  [("Adventurous Impulse", fun s => some (cast_oath_of_nissa s)),
   ("Amulet of Vigor", fun s => some (cast_amulet_of_vigor s)),
   ("Ancient Stirrings", fun s => some (cast_ancient_stirrings s)),
   ("Arboreal Grazer", fun s => some (cast_arboreal_grazer s)),
   ("Azusa, Lost but Seeking", fun s => some (cast_azusa_lost_but_seeking s)),
   ("Beneath the Sands", fun s => some (cast_sakura_tribe_elder s)),
   ("Bond of Flourishing", fun s => some (cast_bond_of_flourishing s)),
   ("Debug Titan", fun s => some (cast_debug_titan s)),
   ("Dryad of the Ilysian Grove", fun s => some (cast_dryad_of_the_ilysian_grove s)),
   ("Elvish Rejuvenator", fun s => some (cast_elvish_rejuvenator s)),
   ("Explore", fun s => some (cast_explore s)),
   ("Growth Spiral", fun s => some (cast_explore s)),
   ("Llanowar Visionary", fun s => some (cast_llanowar_visionary s)),
   ("Oath of Nissa", fun s => some (cast_oath_of_nissa s)),
   ("Once Upon a Time", fun s => some (cast_once_upon_a_time s)),
   ("Opt", fun s => some (cast_opt s)),
   ("Primeval Titan", fun s => some (cast_primeval_titan s)),
   ("Pyretic Ritual", fun s => some (cast_pyretic_ritual s)),
   ("Relic of Progenitus", fun s => some (cast_relic_of_progenitus s)),
   ("Sakura-Tribe Elder", fun s => some (cast_sakura_tribe_elder s)),
   ("Sakura-Tribe Scout", fun s => some (cast_sakura_tribe_scout s)),
   ("Search for Tomorrow", fun s => some (cast_search_for_tomorrow s)),
   ("Summer Bloom", fun s => some (cast_summer_bloom s)),
   ("Summoners Pact", fun s => some (cast_summoners_pact s)),
   ("Through the Breach", fun s => some (cast_through_the_breach s)),
   ("Uro, Titan of Natures Wrath", cast_uro)]

/-- Handler cycle_beneath_the_sands. -/
def cycle_beneath_the_sands (s : GameState) : SSet := {draw 1 s}

/-- Handler cycle_ketria_triome. -/
def cycle_ketria_triome (s : GameState) : SSet := {draw 1 s}

/-- Handler cycle_once_upon_a_time: only free as the first spell of the
game; counts as a cast. -/
def cycle_once_upon_a_time (s : GameState) : SSet :=
  if s.spells_cast ≠ 0 then ∅
  else cast_once_upon_a_time { s with spells_cast := s.spells_cast + 1 }

/-- Handler cycle_search_for_tomorrow: suspend with two counters. -/
def cycle_search_for_tomorrow (s : GameState) : SSet :=
  {suspendF "Search for Tomorrow" 2 s}

/-- Handler cycle_simian_spirit_guide. -/
def cycle_simian_spirit_guide (s : GameState) : SSet := {add_mana mR s}

/-- Handler cycle_tolaria_west: transmute for a zero-mana Pact or Growth
Chamber from the deck list. -/
def cycle_tolaria_west (s : GameState) : SSet :=
  let options : Multiset CardN := {"Summoners Pact", "Simic Growth Chamber"}
  grabs ((zeros (Multiset.ofList s.deck_list)).filter fun c => c ∈ options) s

/-- Handler cycle_tranquil_thicket. -/
def cycle_tranquil_thicket (s : GameState) : SSet := {draw 1 s}

/-- The optional cycle_<slug> handler table. -/
def cycleHandlers : List (CardN × (GameState → SSet)) :=
  [("Beneath the Sands", cycle_beneath_the_sands),
   ("Ketria Triome", cycle_ketria_triome),
   ("Once Upon a Time", cycle_once_upon_a_time),
   ("Search for Tomorrow", cycle_search_for_tomorrow),
   ("Simian Spirit Guide", cycle_simian_spirit_guide),
   ("Tolaria West", cycle_tolaria_west),
   ("Tranquil Thicket", cycle_tranquil_thicket)]

/-- Handler sacrifice_castle_garenbrig: six green mana, only toward a
Titan in hand. -/
def sacrifice_castle_garenbrig (s : GameState) : SSet :=
  if "Primeval Titan" ∉ s.hand then ∅ else {add_mana m6G s}

/-- Handler sacrifice_relic_of_progenitus. -/
def sacrifice_relic_of_progenitus (s : GameState) : SSet := {draw 1 s}

/-- The mandatory sacrifice_<slug> handler table.  sacrifice_devoted_druid
exists in the source but its body calls an undefined method, so invoking
it raises exactly like a missing handler; the table omits it. -/
def sacrificeHandlers : List (CardN × (GameState → SSet)) :=
  [("Castle Garenbrig", sacrifice_castle_garenbrig),
   ("Relic of Progenitus", sacrifice_relic_of_progenitus)]

/-- GameState.cast: requires the card in hand, a mana cost, and a payable
pool (else the empty set); removes the card, bumps spells_cast, branches
through payment, then dispatches the mandatory cast handler (a missing
handler raises). -/
def castE (c : CardN) (s : GameState) : Option SSet :=
  match (oracle c).cost with
  | none => some ∅
  | some k =>
    if c ∉ s.hand then some ∅
    else if ¬ Mana.ge s.mana_pool k then some ∅
    else
      let paid := payF k
        { s with
          hand := s.hand.erase c,
          notes := s.notes ++ ", cast",
          spells_cast := s.spells_cast + 1 }
      match castHandlers.lookup c with
      | none => none
      | some h => appO paid h

/-- GameState.cast_from_suspend: skip cost and payment, bump spells_cast,
dispatch the mandatory cast handler. -/
def cast_from_suspendE (c : CardN) (s : GameState) : Option SSet :=
  let st : GameState :=
    { s with spells_cast := s.spells_cast + 1, notes := s.notes ++ ", cast from suspend" }
  match castHandlers.lookup c with
  | none => none
  | some h => h st

/-- GameState.cycle: requires the card in hand, a cycle cost, and a
payable pool (else the empty set); branches through payment, then
safe-dispatches the optional cycle handler. -/
def cycleT (c : CardN) (s : GameState) : SSet :=
  match (oracle c).cycle_cost with
  | none => ∅
  | some k =>
    if c ∉ s.hand then ∅
    else if ¬ Mana.ge s.mana_pool k then ∅
    else
      let paid := payF k
        { s with hand := s.hand.erase c, notes := s.notes ++ ", cycle" }
      safe_getattr (cycleHandlers.lookup c) paid

/-- GameState.sacrifice: requires the card on the battlefield, a
sacrifice cost, and a payable pool (else the empty set); dispatches the
mandatory sacrifice handler (a missing or broken handler raises). -/
def sacrificeE (c : CardN) (s : GameState) : Option SSet :=
  match (oracle c).sacrifice_cost with
  | none => some ∅
  | some k =>
    if c ∉ s.battlefield then some ∅
    else if ¬ Mana.ge s.mana_pool k then some ∅
    else
      let paid := payF k
        { s with battlefield := s.battlefield.erase c, notes := s.notes ++ ", sacrifice" }
      unsafe_getattr (sacrificeHandlers.lookup c) paid

/-- GameState.pre_game_actions: Gemstone Caverns on the draw — either
ignore it, or exile one other card from hand to start with a Gemstone
Mine in play. -/
def pre_game_actions (s : GameState) : SSet :=
  if "Gemstone Caverns" ∈ s.hand ∧ s.on_the_play = false then
    insert (noteF ", ignore caverns" s)
      ((s.hand.erase "Gemstone Caverns").toFinset.image fun c =>
        { s with
          hand := (s.hand.erase "Gemstone Caverns").erase c,
          battlefield := "Gemstone Mine" ::ₘ s.battlefield,
          notes := s.notes ++ ", cheat out caverns" })
  else {noteF ", no pre-game actions" s}

/-- Ordering used to canonicalize the suspended list (Python sorted on
(card, counter) tuples). -/
def insPair (p : CardN × Nat) : List (CardN × Nat) → List (CardN × Nat)
  | [] => [p]
  | q :: qs =>
      if p.1 < q.1 ∨ (p.1 = q.1 ∧ p.2 ≤ q.2) then p :: q :: qs else q :: insPair p qs

def sortPairs (l : List (CardN × Nat)) : List (CardN × Nat) := l.foldr insPair []

/-- GameState.tick_down: decrement every suspended counter; entries that
reach zero are cast from suspend, sequentially over the state set. -/
def tick_downE (s : GameState) : Option SSet :=
  if s.suspended = [] then some {s}
  else
    let ticking := (s.suspended.filter fun p => 1 < p.2).map fun p => (p.1, p.2 - 1)
    let to_cast := (s.suspended.filter fun p => ¬ 1 < p.2).map Prod.fst
    let st : GameState :=
      if ticking ≠ [] then
        { s with suspended := sortPairs ticking, notes := s.notes ++ ", ticking down" }
      else s
    to_cast.foldl
      (fun acc c => acc.bind fun ss => appO ss (cast_from_suspendE c))
      (some ({st} : SSet))

/-- The opponent kill policy at end of turn: remove every battlefield
card flagged dies. -/
def killCreatures (s : GameState) : GameState :=
  let killed := s.battlefield.filter fun c => (oracle c).dies = true
  if killed ≠ 0 then
    { s with
      battlefield := s.battlefield - killed,
      notes := s.notes ++ ", opponent kills" }
  else s

/-- The recomputed land drops for the new turn, from the surviving
battlefield. -/
def newLandDrops (st : GameState) : Nat :=
  1 + 2 * st.battlefield.count "Azusa, Lost but Seeking" +
    st.battlefield.count "Dryad of the Ilysian Grove" +
    st.battlefield.count "Sakura-Tribe Scout"

/-- The start-of-turn base state pass_turn builds before tapping out:
kill policy applied, land drops recomputed, pools and debt zeroed, turn
bumped. -/
def passBase (s : GameState) : GameState :=
  let st := killCreatures s
  { st with
    land_drops := newLandDrops st,
    mana_debt := Mana.zero,
    mana_pool := Mana.zero,
    turn := s.turn + 1,
    notes := st.notes ++ ", next turn" }

/-- The tail of pass_turn after tick_down: pay the stored debt (when any
was owed) and draw unless on the play at turn zero. -/
def passFinish (s : GameState) (ss3 : SSet) : SSet :=
  let ss4 := if s.mana_debt ≠ Mana.zero then appS ss3 (payF s.mana_debt) else ss3
  if s.on_the_play = true ∧ s.turn = 0 then ss4 else ss4.image (draw 1)

/-- GameState.pass_turn: prune always-losing or debt-locked states, apply
the opponent kill policy, recompute land drops, zero the pools, bump the
turn, tap out, run pre-game actions on turn zero, tick down suspensions,
pay the stored debt, then draw unless on the play at turn zero. -/
def pass_turnE (s : GameState) : Option SSet :=
  if s.turn ≠ 0 ∧ s.battlefield = 0 then some ∅
  else if s.turn < 2 ∧ s.mana_debt ≠ Mana.zero then some ∅
  else
    let ss1 := tap_out (passBase s)
    let ss2 := if s.turn = 0 then appS ss1 pre_game_actions else ss1
    (appO ss2 tick_downE).map (passFinish s)

/-- Terminal test: done or overflowed states generate no transitions. -/
def terminal (s : GameState) : Prop := s.done = true ∨ s.overflowed = true

instance (s : GameState) : Decidable (terminal s) :=
  inferInstanceAs (Decidable (s.done = true ∨ s.overflowed = true))

/-- The pass_turn branch list of next_states: present unless the state
already sits at the turn cap. -/
def passPart (max_turns : Nat) (s : GameState) : List (Option SSet) :=
  if s.turn ≠ max_turns then [pass_turnE s] else []

/-- The land-play branches of next_states: one per distinct land in
hand. -/
def playPart (s : GameState) : List (Option SSet) :=
  (msort (lands false s.hand).dedup).map fun c => playE c s

/-- The cast branches of next_states: one per distinct card in hand. -/
def castPart (s : GameState) : List (Option SSet) :=
  (msort s.hand.dedup).map fun c => castE c s

/-- The cycle branches of next_states: one per distinct card in hand. -/
def cyclePart (s : GameState) : List (Option SSet) :=
  (msort s.hand.dedup).map fun c => some (cycleT c s)

/-- The sacrifice branches of next_states: one per distinct battlefield
card. -/
def sacPart (s : GameState) : List (Option SSet) :=
  (msort s.battlefield.dedup).map fun c => sacrificeE c s

/-- GameState.next_states: the per-state branching oracle.  Terminal
states return themselves; otherwise pass_turn (unless at the turn cap),
every distinct land play, then — under the Once Upon a Time priority
rule — only the OUAT cycle, else every distinct cast and cycle from hand
and every distinct sacrifice from the battlefield. -/
def next_statesE (max_turns : Nat) (s : GameState) : Option SSet :=
  if terminal s then some {s}
  else if s.spells_cast = 0 ∧ "Once Upon a Time" ∈ s.hand then
    unionO (passPart max_turns s ++ playPart s ++
      [some (cycleT "Once Upon a Time" s)])
  else
    unionO (passPart max_turns s ++ playPart s ++ castPart s ++
      cyclePart s ++ sacPart s)

/-- The 12-field tuple that GameState.__hash__ and __eq__ operate on:
every field except notes and deck_list, in the sorted field order of the
namedtuple. -/
structure StateKey where
  battlefield : Multiset CardN
  deck_index : Nat
  done : Bool
  hand : Multiset CardN
  land_drops : Nat
  mana_debt : Mana
  mana_pool : Mana
  on_the_play : Bool
  overflowed : Bool
  spells_cast : Nat
  suspended : List (CardN × Nat)
  turn : Nat
deriving DecidableEq

/-- Projection of a state onto the tuple hashing and equality use. -/
def stateKey (s : GameState) : StateKey :=
  ⟨s.battlefield, s.deck_index, s.done, s.hand, s.land_drops, s.mana_debt,
   s.mana_pool, s.on_the_play, s.overflowed, s.spells_cast, s.suspended, s.turn⟩

/-- GameState.__eq__: equality of the 12-field tuples. -/
def stateEq (s t : GameState) : Prop := stateKey s = stateKey t

instance (s t : GameState) : Decidable (stateEq s t) :=
  inferInstanceAs (Decidable (stateKey s = stateKey t))

/-- GameState.__hash__ hashes the 12-field tuple, so the tuple itself
serves as the hash value in the model (any function of it preserves
equal-tuple collisions). -/
def stateHash (s : GameState) := stateKey s

/-- GameState.clone with no overrides: rebuild the record from its own
field dictionary. -/
def clone0 (s : GameState) : GameState :=
  { battlefield := s.battlefield, deck_index := s.deck_index,
    deck_list := s.deck_list, done := s.done, hand := s.hand,
    land_drops := s.land_drops, mana_debt := s.mana_debt,
    mana_pool := s.mana_pool, notes := s.notes, on_the_play := s.on_the_play,
    overflowed := s.overflowed, spells_cast := s.spells_cast,
    suspended := s.suspended, turn := s.turn }

/-- Outcome of one turn of the simulate loop in src/mtg/manager.py. -/
inductive TurnRes where
  | found
  | notFound
  | overflow
deriving DecidableEq

/-- Python dict update on the turns mapping of the summary record. -/
def upsert (m : List (Nat × Option Bool)) (k : Nat) (v : Option Bool) :
    List (Nat × Option Bool) :=
  if m.any fun p => p.1 = k then m.map fun p => if p.1 = k then (k, v) else p
  else m ++ [(k, v)]

/-- The turn loop of simulate (src/mtg/manager.py): one summary entry per
completed turn; when TooManyStates is raised while computing turn t, the
except branch iterates over range(turn, max_turns+1) but writes the key
str(turn) on every iteration — the loop variable is unused in the body —
exactly as the source does. -/
def simLoop (res : Nat → TurnRes) :
    Nat → Nat → List (Nat × Option Bool) → List (Nat × Option Bool)
  | 0, _, acc => acc
  | fuel + 1, t, acc =>
      match res t with
      | TurnRes.overflow => (List.range (fuel + 1)).foldl (fun m _ => upsert m t none) acc
      | TurnRes.found => simLoop res fuel (t + 1) (upsert acc t (some true))
      | TurnRes.notFound => simLoop res fuel (t + 1) (upsert acc t (some false))

/-- The turns mapping simulate builds for turns 1..max_turns, where `res`
says how each turn plays out (goal found / frontier survives / budget
exceeded during that turn). -/
def simulateTurns (res : Nat → TurnRes) (max_turns : Nat) : List (Nat × Option Bool) :=
  simLoop res max_turns 1 []

/-- The union of every land-play branch of next_states (the branches the
loop `for card in set(self.hand.lands())` contributes). -/
def landPlays (s : GameState) : SSet :=
  (lands false s.hand).toFinset.biUnion fun c => (playE c s).getD ∅

/-- A concrete state used to instantiate hypotheses of the universally
quantified theorems. -/
def exS : GameState :=
  { battlefield := {"Forest"}, deck_index := 0,
    deck_list := ["Forest", "Primeval Titan"], done := false,
    hand := {"Once Upon a Time", "Forest"}, land_drops := 0,
    mana_debt := Mana.zero, mana_pool := Mana.zero, notes := "",
    on_the_play := false, overflowed := false, spells_cast := 0,
    suspended := [], turn := 1 }

/-- A non-terminal turn-zero state with Once Upon a Time and a Forest in
hand: the counterexample input for the priority-rule claim. -/
def c1s : GameState :=
  { battlefield := 0, deck_index := 0,
    deck_list := ["Forest", "Primeval Titan"], done := false,
    hand := {"Once Upon a Time", "Forest"}, land_drops := 0,
    mana_debt := Mana.zero, mana_pool := Mana.zero, notes := "",
    on_the_play := false, overflowed := false, spells_cast := 0,
    suspended := [], turn := 0 }

/-- A state with a Devoted Druid in hand and in play, a Lonely Sandbar
in hand, and two green mana in the pool: the dispatch witness input. -/
def c9s : GameState :=
  { battlefield := {"Devoted Druid"}, deck_index := 0, deck_list := [],
    done := false, hand := {"Devoted Druid", "Lonely Sandbar"},
    land_drops := 0, mana_debt := Mana.zero, mana_pool := mGG, notes := "",
    on_the_play := false, overflowed := false, spells_cast := 0,
    suspended := [], turn := 1 }

/-- Frame facts preserved by every same-turn transition: the deck list
is unchanged, the deck cursor only advances, spells_cast never
decreases, and the turn stays put. -/
def Frame (s t : GameState) : Prop :=
  t.deck_list = s.deck_list ∧ s.deck_index ≤ t.deck_index ∧
  s.spells_cast ≤ t.spells_cast ∧ t.turn = s.turn

/-- A total transition all of whose successors respect the frame. -/
def FrameAll (f : GameState → SSet) : Prop :=
  ∀ s t, t ∈ f s → Frame s t

/-- A possibly-raising transition all of whose successors respect the
frame. -/
def FrameAllO (f : GameState → Option SSet) : Prop :=
  ∀ s S t, f s = some S → t ∈ S → Frame s t

/-- The pass_turn successor of the example state: draw one on top of the
tapped-out new-turn base. -/
def c7t : GameState :=
  draw 1 { passBase exS with
           mana_pool := mG,
           notes := (passBase exS).notes ++ ", tap out" }

/-- The single result of fetching a Forest tapped onto the example
state. -/
def c10f : GameState :=
  { exS with
    battlefield := "Forest" ::ₘ exS.battlefield,
    notes := exS.notes ++ ", fetch" }

/-- A total transition none of whose successors flips the done flag. -/
def DoneAll (f : GameState → SSet) : Prop := ∀ s t, t ∈ f s → t.done = s.done

/-- A possibly-raising transition none of whose successors flips the
done flag. -/
def DoneAllO (f : GameState → Option SSet) : Prop :=
  ∀ s S t, f s = some S → t ∈ S → t.done = s.done

/-- A terminal version of the example state (goal already reached). -/
def termS : GameState := { exS with done := true }

/-- The example state holding only a Primeval Titan in hand. -/
def c6h : GameState := { exS with hand := ({"Primeval Titan"} : Multiset CardN) }

/-- The single successor of casting Explore on the example state. -/
def c6t : GameState := draw 1 { exS with land_drops := exS.land_drops + 1 }

/-- The start-of-turn bookkeeping facts that hold of every intermediate
state between the pass_turn base and the final draw. -/
def MidC4 (s u : GameState) : Prop :=
  u.land_drops = newLandDrops (killCreatures s) ∧ u.turn = s.turn + 1 ∧
  u.mana_debt = Mana.zero ∧ u.deck_index = s.deck_index ∧
  u.suspended = s.suspended

/-- Counterexample to claim C4 as stated: a state with a Summer Bloom on
one suspend counter produces a pass_turn successor whose land_drops is 4,
not the recomputed 1 + 2·Azusa + Dryad + Scout = 1, because the spell
cast from suspend during tick_down adds three land drops. -/
def c4s : GameState :=
  { battlefield := {"Forest"}, deck_index := 0, deck_list := [], done := false,
    hand := 0, land_drops := 0, mana_debt := Mana.zero, mana_pool := Mana.zero,
    notes := "", on_the_play := false, overflowed := false, spells_cast := 1,
    suspended := [("Summer Bloom", 1)], turn := 3 }

/-- Hand weight of a card for the termination measure of the turn
driver.  Cards that can put other cards into the hand or grant land
drops weigh more than anything they can produce. -/
def wCard (c : CardN) : Nat :=
  match c with
  | "Azusa, Lost but Seeking" => 6
  | "Summer Bloom" => 7
  | "Summoners Pact" => 7
  | "Tolaria West" => 8
  | "Sakura-Tribe Elder" => 6
  | "Beneath the Sands" => 6
  | "Search for Tomorrow" => 6
  | _ => 4

/-- Battlefield weight: one less than the hand weight for lands (so a
bounce gains exactly one), a flat one otherwise. -/
def vCard (c : CardN) : Nat := if isLand c then wCard c - 1 else 1

/-- Hand component of the measure. -/
def handW (m : Multiset CardN) : Nat := (m.map wCard).sum

/-- Battlefield component of the measure. -/
def bfW (m : Multiset CardN) : Nat := (m.map vCard).sum

/-- Suspension component of the measure. -/
def suspW (l : List (CardN × Nat)) : Nat := (l.map Prod.snd).sum

/-- The turn-local termination measure: a deck card outweighs any hand
card, a hand card outweighs what playing or casting it can return, and
land drops and suspension counters pay for what consumes them. -/
def measW (s : GameState) : Nat :=
  32 * (s.deck_list.length - s.deck_index) + handW s.hand + bfW s.battlefield +
    2 * s.land_drops + suspW s.suspended

/-- GameState.next_turn: the worklist loop of the generator, seeded with
one popped state.  `ct` is the caller's turn (self.turn in the source),
`mt` is max_turns.  The first component collects terminal yields, the
second the turn-advanced yields, the flag records an AttributeError
escaping some expansion.  A terminal successor is collected and not
re-expanded: the consumer (GameStates.next_turn) returns at the first
terminal yield, so nothing past it is ever observed (the producer alone
would re-add a same-turn terminal state forever, there being no elif
between the two yield tests).  The fuel argument makes the recursion
structural; sufficiency of some finite fuel is the termination content,
proved below. -/
def next_turn_gen : Nat → Nat → Nat → GameState → Option (SSet × SSet × Bool)
  | 0, _, _, _ => none
  | n + 1, mt, ct, s =>
      if terminal s then some ({s}, ∅, false)
      else
        match next_statesE mt s with
        | none => some (∅, ∅, true)
        | some T =>
            let f : GameState → Option (SSet × SSet × Bool) := fun t =>
              if terminal t then some ({t}, ∅, false)
              else if ct < t.turn then some (∅, ({t} : SSet), false)
              else next_turn_gen n mt ct t
            if ∀ t ∈ T, (f t).isSome then
              some
                (T.biUnion fun t => ((f t).getD (∅, ∅, false)).1,
                 T.biUnion fun t => ((f t).getD (∅, ∅, false)).2.1,
                 decide (∃ t ∈ T, ((f t).getD (∅, ∅, false)).2.2 = true))
            else none

/-- GameState.next_turn at its call shape: the empty generator at the
turn cap, the worklist loop seeded with the state itself otherwise. -/
def next_turnF (n mt : Nat) (s : GameState) : Option (SSet × SSet × Bool) :=
  if s.turn = mt then some (∅, ∅, false) else next_turn_gen n mt s.turn s

/-- GameStates.next_turn, summed over the member generators: every state
the consumer can return — the bail singleton at a terminal yield or the
collected turn-advanced states — is a yield of some member's generator,
so the union of yields carries the consumer's postcondition. -/
def gs_next_turnF (n mt : Nat) (ss : Finset GameState) : Option SSet :=
  if ∀ s ∈ ss, (next_turnF n mt s).isSome then
    some (ss.biUnion fun s =>
      ((next_turnF n mt s).getD (∅, ∅, false)).1 ∪
        ((next_turnF n mt s).getD (∅, ∅, false)).2.1)
  else none

/-- A solved (done) state at turn 1, used to exercise the turn driver. -/
def c8s : GameState := { exS with done := true }

theorem mem_msort (c : CardN) (m : Multiset CardN) : c ∈ msort m ↔ c ∈ m := by
  induction m using Quotient.inductionOn with
  | h l => exact (List.perm_insertionSort sLe l).mem_iff

theorem mem_foldl_union (l : List (Option SSet)) (acc : SSet) (t : GameState) :
    t ∈ l.foldl (fun a o => a ∪ o.getD ∅) acc ↔ t ∈ acc ∨ ∃ o ∈ l, t ∈ o.getD ∅ := by
  induction l generalizing acc with
  | nil => simp
  | cons o l ih =>
      rw [List.foldl_cons, ih]
      simp [Finset.mem_union, or_assoc]

theorem unionO_isSome (l : List (Option SSet)) (T : SSet) (h : unionO l = some T) :
    ∀ o ∈ l, o.isSome := by
  by_cases hc : ∀ o ∈ l, o.isSome = true
  · exact hc
  · unfold unionO at h
    rw [if_neg hc] at h
    cases h

theorem mem_unionO (l : List (Option SSet)) (T : SSet) (h : unionO l = some T)
    (t : GameState) : t ∈ T ↔ ∃ S, some S ∈ l ∧ t ∈ S := by
  have hs := unionO_isSome l T h
  unfold unionO at h
  rw [if_pos hs] at h
  cases h
  rw [mem_foldl_union]
  simp only [Finset.not_mem_empty, false_or]
  constructor
  · rintro ⟨o, ho, hto⟩
    rcases Option.isSome_iff_exists.mp (hs o ho) with ⟨S, rfl⟩
    exact ⟨S, ho, by simpa using hto⟩
  · rintro ⟨S, hS, htS⟩
    exact ⟨some S, hS, by simpa using htS⟩

/-- Claim C3: two GameStates are equal iff all fields other than notes
and deck_list are equal; equal states have equal hashes; clone() with no
overrides yields a state equal to the original; and appending to notes
via note() leaves the hash unchanged. -/
theorem claim_C3 :
    (∀ s t : GameState, stateEq s t ↔
      (s.battlefield = t.battlefield ∧ s.deck_index = t.deck_index ∧
       s.done = t.done ∧ s.hand = t.hand ∧ s.land_drops = t.land_drops ∧
       s.mana_debt = t.mana_debt ∧ s.mana_pool = t.mana_pool ∧
       s.on_the_play = t.on_the_play ∧ s.overflowed = t.overflowed ∧
       s.spells_cast = t.spells_cast ∧ s.suspended = t.suspended ∧
       s.turn = t.turn)) ∧
    (∀ s t : GameState, stateEq s t → stateHash s = stateHash t) ∧
    (∀ s : GameState, stateEq (clone0 s) s) ∧
    (∀ (s : GameState) (txt : String), stateHash (noteF txt s) = stateHash s) := by
  refine ⟨fun s t => ?_, fun s t h => h, fun s => rfl, fun s txt => rfl⟩
  simp [stateEq, stateKey, StateKey.mk.injEq]

/-- Witness for claim C3 at a concrete state: a note() clone stays equal
and keeps the hash. -/
theorem claim_C3_witness :
    stateEq exS (noteF "x" exS) ∧ stateHash exS = stateHash (noteF "x" exS) :=
  ⟨by decide, claim_C3.2.1 exS (noteF "x" exS) (by decide)⟩

/-- Claim C2 (the code as written): if the budget is exceeded while turn
1 of 3 is being computed, the summary maps turn 1 to null and has no
entry at all for turns 2 and 3 — the except branch writes the outer
`turn` key on every loop iteration, so nothing records null for the
later turns. -/
theorem claim_C2 :
    simulateTurns (fun _ => TurnRes.overflow) 3 = [(1, none)] ∧
    (simulateTurns (fun _ => TurnRes.overflow) 3).lookup 2 = none ∧
    (simulateTurns (fun _ => TurnRes.overflow) 3).lookup 3 = none := by
  refine ⟨rfl, rfl, rfl⟩

/-- Claim C5: operations whose preconditions are unmet return the empty
state set and raise nothing — cast and cycle when the card is not in
hand, has no (cycle) cost, or the pool cannot cover the cost; play of a
land when land_drops is zero or the card is not in hand; sacrifice when
the card is not on the battlefield. -/
theorem claim_C5 (s : GameState) (c : CardN) :
    (c ∉ s.hand → castE c s = some ∅) ∧
    ((oracle c).cost = none → castE c s = some ∅) ∧
    (∀ k, (oracle c).cost = some k → ¬ Mana.ge s.mana_pool k → castE c s = some ∅) ∧
    (c ∉ s.hand → cycleT c s = ∅) ∧
    ((oracle c).cycle_cost = none → cycleT c s = ∅) ∧
    (∀ k, (oracle c).cycle_cost = some k → ¬ Mana.ge s.mana_pool k → cycleT c s = ∅) ∧
    (isLand c = true → s.land_drops = 0 → playE c s = some ∅) ∧
    (isLand c = true → c ∉ s.hand → playE c s = some ∅) ∧
    (c ∉ s.battlefield → sacrificeE c s = some ∅) := by
  refine ⟨?_, ?_, ?_, ?_, ?_, ?_, ?_, ?_, ?_⟩
  · intro hc
    cases h : (oracle c).cost with
    | none => simp [castE, h]
    | some k => simp [castE, h, hc]
  · intro h; simp [castE, h]
  · intro k h hk; simp [castE, h, hk]
  · intro hc
    cases h : (oracle c).cycle_cost with
    | none => simp [cycleT, h]
    | some k => simp [cycleT, h, hc]
  · intro h; simp [cycleT, h]
  · intro k h hk; simp [cycleT, h, hk]
  · intro hl hd
    have : "land" ∈ (oracle c).types := by simpa [isLand] using hl
    simp [playE, this, hd]
  · intro hl hc
    have : "land" ∈ (oracle c).types := by simpa [isLand] using hl
    simp [playE, this, hc]
  · intro hc
    cases h : (oracle c).sacrifice_cost with
    | none => simp [sacrificeE, h]
    | some k => simp [sacrificeE, h, hc]

/-- Witness for claim C5 at concrete inputs: Explore is not in the hand
of the example state, Forest has no mana cost and no cycle cost, the
empty pool cannot pay for the Once Upon a Time in hand, there is no land
drop for the Forest in hand, and no Relic of Progenitus is in play. -/
theorem claim_C5_witness :
    castE "Explore" exS = some ∅ ∧
    castE "Forest" exS = some ∅ ∧
    castE "Once Upon a Time" exS = some ∅ ∧
    cycleT "Explore" exS = ∅ ∧
    cycleT "Forest" exS = ∅ ∧
    cycleT "Tolaria West" exS = ∅ ∧
    playE "Forest" exS = some ∅ ∧
    playE "Simic Growth Chamber" exS = some ∅ ∧
    sacrificeE "Relic of Progenitus" exS = some ∅ := by
  have h1 := claim_C5 exS "Explore"
  have h2 := claim_C5 exS "Forest"
  have h3 := claim_C5 exS "Once Upon a Time"
  have h4 := claim_C5 exS "Tolaria West"
  have h5 := claim_C5 exS "Simic Growth Chamber"
  have h6 := claim_C5 exS "Relic of Progenitus"
  refine ⟨h1.1 (by decide), h2.2.1 (by decide),
    h3.2.2.1 m1G (by decide) (by decide), (h1.2.2.2).1 (by decide),
    h2.2.2.2.2.1 (by decide),
    h4.2.2.2.2.2.1 m1UU (by decide) (by decide),
    h2.2.2.2.2.2.2.1 (by decide) (by decide),
    h5.2.2.2.2.2.2.2.1 (by decide) (by decide),
    h6.2.2.2.2.2.2.2.2 (by decide)⟩

/-- Counterexample to claim C1 as stated: on a non-terminal state with
spells_cast = 0 and Once Upon a Time in hand, next_states contains a
successor with the turn advanced — a pass_turn branch — while every
cycle-OUAT successor keeps the current turn, so the result is not only
the cycle-OUAT branch. -/
theorem claim_C1_cex :
    (¬ terminal c1s) ∧ c1s.spells_cast = 0 ∧ "Once Upon a Time" ∈ c1s.hand ∧
    1 ∈ ((next_statesE 2 c1s).getD ∅).image GameState.turn ∧
    (cycleT "Once Upon a Time" c1s).image GameState.turn = {0} := by
  refine ⟨by decide, by decide, by decide, by decide, by decide⟩

/-- Claim C1 as amended: for a non-terminal state with spells_cast = 0
and Once Upon a Time in hand, next_states returns exactly the union of
the pass_turn branch (when not at the turn cap), the land-play branches,
and the cycle-OUAT branch; the cast, cycle-of-other-cards and sacrifice
loops are skipped. -/
theorem claim_C1 (mt : Nat) (s : GameState) (T : SSet)
    (h1 : ¬ terminal s) (h2 : s.spells_cast = 0)
    (h3 : "Once Upon a Time" ∈ s.hand)
    (hT : next_statesE mt s = some T) :
    T = (if s.turn ≠ mt then (pass_turnE s).getD ∅ else ∅) ∪ landPlays s ∪
        cycleT "Once Upon a Time" s := by
  unfold next_statesE at hT
  rw [if_neg h1, if_pos (And.intro h2 h3)] at hT
  have hsome := unionO_isSome _ _ hT
  ext t
  rw [mem_unionO _ _ hT t]
  simp only [List.mem_append, List.mem_singleton, Finset.mem_union]
  constructor
  · rintro ⟨S, (hS | hS) | hS, htS⟩
    · left; left
      unfold passPart at hS
      by_cases hmt : s.turn ≠ mt
      · rw [if_pos hmt] at hS
        simp only [List.mem_singleton] at hS
        rw [if_pos hmt, ← hS]
        simpa using htS
      · rw [if_neg hmt] at hS
        simp at hS
    · left; right
      unfold playPart at hS
      simp only [List.mem_map] at hS
      rcases hS with ⟨c, hc, heq⟩
      unfold landPlays
      rw [Finset.mem_biUnion]
      refine ⟨c, ?_, ?_⟩
      · rw [Multiset.mem_toFinset]
        exact Multiset.mem_dedup.mp ((mem_msort c _).mp hc)
      · rw [heq]
        simpa using htS
    · right
      simp only [Option.some.injEq] at hS
      rw [hS] at htS
      exact htS
  · rintro ((hp | hp) | hp)
    · by_cases hmt : s.turn ≠ mt
      · rw [if_pos hmt] at hp
        have hin : pass_turnE s ∈
            passPart mt s ++ playPart s ++ [some (cycleT "Once Upon a Time" s)] := by
          simp [passPart, hmt]
        rcases Option.isSome_iff_exists.mp (hsome _ hin) with ⟨P, hP⟩
        rw [hP] at hp
        simp only [Option.getD_some] at hp
        refine ⟨P, Or.inl (Or.inl ?_), hp⟩
        simp [passPart, hmt, hP]
      · rw [if_neg hmt] at hp
        simp at hp
    · unfold landPlays at hp
      rw [Finset.mem_biUnion] at hp
      rcases hp with ⟨c, hc, htc⟩
      rw [Multiset.mem_toFinset] at hc
      have hmem : playE c s ∈
          passPart mt s ++ playPart s ++ [some (cycleT "Once Upon a Time" s)] := by
        simp only [List.mem_append, List.mem_singleton]
        left; right
        unfold playPart
        simp only [List.mem_map]
        exact ⟨c, (mem_msort c _).mpr (Multiset.mem_dedup.mpr hc), rfl⟩
      rcases Option.isSome_iff_exists.mp (hsome _ hmem) with ⟨Q, hQ⟩
      rw [hQ] at htc
      simp only [Option.getD_some] at htc
      refine ⟨Q, Or.inl (Or.inr ?_), htc⟩
      unfold playPart
      simp only [List.mem_map]
      exact ⟨c, (mem_msort c _).mpr (Multiset.mem_dedup.mpr hc), hQ⟩
    · exact ⟨cycleT "Once Upon a Time" s, Or.inr rfl, hp⟩

/-- Witness for the amended claim C1 at the concrete counterexample
state. -/
theorem claim_C1_witness :
    ((next_statesE 2 c1s).getD ∅) =
      (if c1s.turn ≠ 2 then (pass_turnE c1s).getD ∅ else ∅) ∪ landPlays c1s ∪
        cycleT "Once Upon a Time" c1s :=
  claim_C1 2 c1s ((next_statesE 2 c1s).getD ∅) (by decide) (by decide) (by decide)
    (by decide)

/-- Claim C9: the safe dispatch used by cycle and land plays returns the
current state set unchanged when no handler exists, while the unsafe
dispatch used by cast and sacrifice raises on a missing mandatory
handler: a cycling card with no cycle handler cycles to exactly the
post-payment states, a land with no play handler plays to exactly the
moved-and-tapped states, and a castable or sacrificeable card with no
handler makes cast or sacrifice raise (none). -/
theorem claim_C9 :
    (∀ ss : SSet, safe_getattr none ss = ss) ∧
    (∀ ss : SSet, unsafe_getattr none ss = none) ∧
    (∀ (s : GameState) (c : CardN) (k : Mana), cycleHandlers.lookup c = none →
      (oracle c).cycle_cost = some k → c ∈ s.hand → Mana.ge s.mana_pool k →
      cycleT c s =
        payF k { s with hand := s.hand.erase c, notes := s.notes ++ ", cycle" }) ∧
    (∀ (s : GameState) (c : CardN), playHandlers.lookup c = none →
      play_untapped c s =
        tapF c { s with battlefield := c ::ₘ s.battlefield, hand := s.hand.erase c }) ∧
    (∀ (s : GameState) (c : CardN) (k : Mana), castHandlers.lookup c = none →
      (oracle c).cost = some k → c ∈ s.hand → Mana.ge s.mana_pool k →
      castE c s = none) ∧
    (∀ (s : GameState) (c : CardN) (k : Mana), sacrificeHandlers.lookup c = none →
      (oracle c).sacrifice_cost = some k → c ∈ s.battlefield → Mana.ge s.mana_pool k →
      sacrificeE c s = none) := by
  refine ⟨fun ss => rfl, fun ss => rfl, ?_, ?_, ?_, ?_⟩
  · intro s c k hl hk hc hge
    simp only [cycleT, hk]
    rw [if_neg (by simpa using hc), if_neg (by simpa using hge), hl]
    rfl
  · intro s c hl
    unfold play_untapped
    rw [hl]
    rfl
  · intro s c k hl hk hc hge
    simp only [castE, hk]
    rw [if_neg (by simpa using hc), if_neg (by simpa using hge), hl]
  · intro s c k hl hk hc hge
    simp only [sacrificeE, hk]
    rw [if_neg (by simpa using hc), if_neg (by simpa using hge), hl]
    rfl

/-- Witness for claim C9 at concrete inputs: Lonely Sandbar has a cycle
cost but no cycle handler, and Devoted Druid has a mana cost and a
sacrifice cost but neither a cast handler nor a working sacrifice
handler. -/
theorem claim_C9_witness :
    cycleT "Lonely Sandbar" c9s =
      payF m1 { c9s with
                hand := c9s.hand.erase "Lonely Sandbar",
                notes := c9s.notes ++ ", cycle" } ∧
    castE "Devoted Druid" c9s = none ∧
    sacrificeE "Devoted Druid" c9s = none := by
  refine ⟨claim_C9.2.2.1 c9s "Lonely Sandbar" m1 rfl (by decide)
      (by decide) (by decide),
    claim_C9.2.2.2.2.1 c9s "Devoted Druid" m1G rfl (by decide)
      (by decide) (by decide),
    claim_C9.2.2.2.2.2 c9s "Devoted Druid" Mana.zero rfl (by decide)
      (by decide) (by decide)⟩

theorem frame_refl (s : GameState) : Frame s s := ⟨rfl, le_refl _, le_refl _, rfl⟩

theorem frame_trans {s u t : GameState} (h1 : Frame s u) (h2 : Frame u t) :
    Frame s t :=
  ⟨h2.1.trans h1.1, h1.2.1.trans h2.2.1, h1.2.2.1.trans h2.2.2.1,
   h2.2.2.2.trans h1.2.2.2⟩

theorem lookup_mem {α β : Type} [BEq α] [LawfulBEq α] {l : List (α × β)}
    {k : α} {v : β} (h : l.lookup k = some v) : (k, v) ∈ l := by
  induction l with
  | nil => cases h
  | cons p l ih =>
      rw [List.lookup] at h
      by_cases hk : (k == p.1) = true
      · rw [hk] at h
        cases h
        have hkp : k = p.1 := eq_of_beq hk
        rw [hkp, Prod.mk.eta]
        exact List.mem_cons_self p l
      · rw [Bool.not_eq_true] at hk
        rw [hk] at h
        right
        exact ih h

theorem frame_appS {s : GameState} {ss : SSet} {f : GameState → SSet}
    (hss : ∀ u ∈ ss, Frame s u) (hf : FrameAll f) :
    ∀ t ∈ appS ss f, Frame s t := by
  intro t ht
  rcases Finset.mem_biUnion.mp ht with ⟨u, hu, htu⟩
  exact frame_trans (hss u hu) (hf u t htu)

theorem frame_appO {s : GameState} {ss : SSet} {f : GameState → Option SSet}
    {T : SSet} (hss : ∀ u ∈ ss, Frame s u) (hf : FrameAllO f)
    (h : appO ss f = some T) : ∀ t ∈ T, Frame s t := by
  intro t ht
  unfold appO at h
  split at h
  · cases h
    rcases Finset.mem_biUnion.mp ht with ⟨u, hu, htu⟩
    rename_i hall
    rcases Option.isSome_iff_exists.mp (hall u hu) with ⟨S, hS⟩
    rw [hS] at htu
    simp only [Option.getD_some] at htu
    exact frame_trans (hss u hu) (hf u S t hS htu)
  · cases h

theorem frame_draw (n : Nat) (s : GameState) : Frame s (draw n s) :=
  ⟨rfl, Nat.le_add_right _ _, le_refl _, rfl⟩

theorem frame_mill (n : Nat) (s : GameState) : Frame s (mill n s) :=
  ⟨rfl, Nat.le_add_right _ _, le_refl _, rfl⟩

theorem frame_grab (c : CardN) (s : GameState) : Frame s (grab c s) :=
  ⟨rfl, le_refl _, le_refl _, rfl⟩

theorem frame_noteF (txt : String) (s : GameState) : Frame s (noteF txt s) :=
  ⟨rfl, le_refl _, le_refl _, rfl⟩

theorem frame_add_mana (m : Mana) (s : GameState) : Frame s (add_mana m s) :=
  ⟨rfl, le_refl _, le_refl _, rfl⟩

theorem frame_suspendF (c : CardN) (n : Nat) (s : GameState) :
    Frame s (suspendF c n s) :=
  ⟨rfl, le_refl _, le_refl _, rfl⟩

theorem frame_payF (k : Mana) : FrameAll (payF k) := by
  intro s t ht
  rcases Finset.mem_image.mp ht with ⟨m, _, rfl⟩
  exact ⟨rfl, le_refl _, le_refl _, rfl⟩

theorem frame_tapF (c : CardN) : FrameAll (tapF c) := by
  intro s t ht
  by_cases hos : (oracle c).taps_for = []
  · simp only [tapF, hos, if_true] at ht
    rw [Finset.mem_singleton] at ht
    exact ht ▸ frame_refl s
  · simp only [tapF, hos, if_false, ite_false] at ht
    rcases List.mem_map.mp (List.mem_toFinset.mp ht) with ⟨m, _, rfl⟩
    exact ⟨rfl, le_refl _, le_refl _, rfl⟩

theorem frame_tap_out : FrameAll tap_out := by
  intro s t ht
  rcases Finset.mem_image.mp ht with ⟨p, _, rfl⟩
  exact ⟨rfl, le_refl _, le_refl _, rfl⟩

theorem frame_scry1 : FrameAll scry1 := by
  intro s t ht
  unfold scry1 at ht
  rcases Finset.mem_insert.mp ht with h | h
  · exact h ▸ frame_mill 1 s
  · rw [Finset.mem_singleton] at h
    exact h ▸ frame_noteF _ s

theorem frame_bounce_land : FrameAll bounce_land := by
  intro s t ht
  rcases Finset.mem_image.mp ht with ⟨c, _, rfl⟩
  exact ⟨rfl, le_refl _, le_refl _, rfl⟩

theorem frame_pitch (n : Nat) (o : Multiset CardN) :
    ∀ s t, t ∈ pitch n o s → Frame s t := by
  intro s t ht
  rcases Finset.mem_image.mp ht with ⟨cs, _, rfl⟩
  exact ⟨rfl, le_refl _, le_refl _, rfl⟩

theorem frame_grabs (cs : Multiset CardN) : ∀ s t, t ∈ grabs cs s → Frame s t := by
  intro s t ht
  rcases Finset.mem_image.mp ht with ⟨c, _, rfl⟩
  exact frame_grab c s

theorem frame_someAll {f : GameState → SSet} (hf : FrameAll f) :
    FrameAllO fun s => some (f s) := by
  intro s S t hS ht
  cases hS
  exact hf s t ht

theorem frame_fold_appS {f : GameState → SSet} (hf : FrameAll f) {α : Type}
    (l : List α) {s : GameState} (ss : SSet) (hss : ∀ u ∈ ss, Frame s u) :
    ∀ u ∈ l.foldl (fun a _ => appS a f) ss, Frame s u := by
  induction l generalizing ss with
  | nil => exact hss
  | cons x l ih => exact ih (appS ss f) (frame_appS hss hf)

theorem frame_safe_getattr {s : GameState} {ss : SSet}
    {oh : Option (GameState → SSet)} (hh : ∀ h, oh = some h → FrameAll h)
    (hss : ∀ u ∈ ss, Frame s u) : ∀ t ∈ safe_getattr oh ss, Frame s t := by
  cases oh with
  | none => exact hss
  | some h => exact frame_appS hss (hh h rfl)

theorem frame_play_lotus_field : FrameAll play_lotus_field := by
  intro s t ht
  by_cases hc : 2 < Multiset.card (s.battlefield.filter fun c => isLand c = true)
  · simp only [play_lotus_field, hc, if_true] at ht
    rcases Finset.mem_image.mp ht with ⟨ts, _, rfl⟩
    exact ⟨rfl, le_refl _, le_refl _, rfl⟩
  · simp only [play_lotus_field, hc, if_false] at ht
    rw [Finset.mem_singleton] at ht
    exact ht ▸ ⟨rfl, le_refl _, le_refl _, rfl⟩

theorem frame_playHandlers : ∀ c h, playHandlers.lookup c = some h → FrameAll h := by
  intro c h hl
  have hmem := lookup_mem hl
  simp only [playHandlers, List.mem_cons, List.not_mem_nil, or_false,
    Prod.mk.injEq] at hmem
  rcases hmem with ⟨_, rfl⟩ | ⟨_, rfl⟩ | ⟨_, rfl⟩ | ⟨_, rfl⟩ | ⟨_, rfl⟩ |
    ⟨_, rfl⟩ | ⟨_, rfl⟩
  · exact fun s t ht => frame_bounce_land s t ht
  · intro s t ht
    simp only [play_crumbling_vestige, Finset.mem_singleton] at ht
    exact ht ▸ frame_add_mana mG s
  · exact frame_play_lotus_field
  · exact fun s t ht => frame_bounce_land s t ht
  · exact fun s t ht => frame_bounce_land s t ht
  · exact frame_scry1
  · exact frame_scry1

theorem frame_play_tapped (c : CardN) : FrameAll (play_tapped c) := by
  intro s t ht
  simp only [play_tapped] at ht
  refine frame_safe_getattr (fun h hl => frame_playHandlers c h hl)
    (frame_fold_appS (frame_tapF c) _ _ ?_) t ht
  intro u hu
  rw [Finset.mem_singleton] at hu
  exact hu ▸ ⟨rfl, le_refl _, le_refl _, rfl⟩

theorem frame_play_untapped (c : CardN) : FrameAll (play_untapped c) := by
  intro s t ht
  simp only [play_untapped] at ht
  refine frame_safe_getattr (fun h hl => frame_playHandlers c h hl) ?_ t ht
  intro u hu
  have h1 : Frame s ({ s with
      battlefield := c ::ₘ s.battlefield,
      hand := s.hand.erase c } : GameState) :=
    ⟨rfl, le_refl _, le_refl _, rfl⟩
  exact frame_trans h1 (frame_tapF c _ u hu)

theorem frame_fetchF (c : CardN) (tp : Option Bool) : FrameAll (fetchF c tp) := by
  intro s t ht
  simp only [fetchF] at ht
  have h1 : Frame s ({ s with
      hand := c ::ₘ s.hand,
      notes := s.notes ++ ", fetch" } : GameState) :=
    ⟨rfl, le_refl _, le_refl _, rfl⟩
  split at ht
  · exact frame_trans h1 (frame_play_tapped c _ t ht)
  · exact frame_trans h1 (frame_play_untapped c _ t ht)

theorem frame_playE (c : CardN) : FrameAllO (playE c) := by
  intro s S t hS ht
  unfold playE at hS
  split at hS
  · cases hS
  · split at hS
    · cases hS
      cases ht
    · have hst : Frame s
          ({ s with
             notes := s.notes ++ ", play",
             land_drops := s.land_drops - 1 } : GameState) :=
        ⟨rfl, le_refl _, le_refl _, rfl⟩
      split at hS
      · split at hS
        · cases hS
        · cases hS
          split at ht
          · exact frame_trans hst (frame_play_tapped c _ t ht)
          · exact frame_trans hst (frame_play_untapped c _ t ht)
      · cases hS
        exact frame_trans hst (frame_play_tapped c _ t ht)
      · cases hS
        exact frame_trans hst (frame_play_untapped c _ t ht)

theorem frame_cast_amulet_of_vigor : FrameAll cast_amulet_of_vigor := by
  intro s t ht
  simp only [cast_amulet_of_vigor, Finset.mem_singleton] at ht
  exact ht ▸ ⟨rfl, le_refl _, le_refl _, rfl⟩

theorem frame_cast_ancient_stirrings : FrameAll cast_ancient_stirrings := by
  intro s t ht
  exact frame_trans (frame_mill 5 s) (frame_grabs _ _ t ht)

theorem frame_cast_arboreal_grazer : FrameAll cast_arboreal_grazer := by
  intro s t ht
  rcases Finset.mem_biUnion.mp ht with ⟨c, _, htc⟩
  exact frame_play_tapped c s t htc

theorem frame_cast_azusa : FrameAll cast_azusa_lost_but_seeking := by
  intro s t ht
  unfold cast_azusa_lost_but_seeking at ht
  split at ht
  · exact absurd ht (Finset.not_mem_empty t)
  · rw [Finset.mem_singleton] at ht
    exact ht ▸ ⟨rfl, le_refl _, le_refl _, rfl⟩

theorem frame_cast_bond_of_flourishing : FrameAll cast_bond_of_flourishing := by
  intro s t ht
  exact frame_trans (frame_mill 3 s) (frame_grabs _ _ t ht)

theorem frame_cast_debug_titan : FrameAll cast_debug_titan := by
  intro s t ht
  simp only [cast_debug_titan, Finset.mem_singleton] at ht
  exact ht ▸ ⟨rfl, le_refl _, le_refl _, rfl⟩

theorem frame_cast_dryad : FrameAll cast_dryad_of_the_ilysian_grove := by
  intro s t ht
  simp only [cast_dryad_of_the_ilysian_grove, Finset.mem_singleton] at ht
  exact ht ▸ ⟨rfl, le_refl _, le_refl _, rfl⟩

theorem frame_cast_elvish_rejuvenator : FrameAll cast_elvish_rejuvenator := by
  intro s t ht
  rcases Finset.mem_biUnion.mp ht with ⟨l, _, htl⟩
  exact frame_trans (frame_trans (frame_mill 5 s) (frame_grab l _))
    (frame_play_tapped l _ t htl)

theorem frame_cast_explore : FrameAll cast_explore := by
  intro s t ht
  simp only [cast_explore, Finset.mem_singleton] at ht
  exact ht ▸ frame_trans ⟨rfl, le_refl _, le_refl _, rfl⟩ (frame_draw 1 _)

theorem frame_cast_llanowar_visionary : FrameAll cast_llanowar_visionary := by
  intro s t ht
  simp only [cast_llanowar_visionary, Finset.mem_singleton] at ht
  exact ht ▸ frame_trans ⟨rfl, le_refl _, le_refl _, rfl⟩ (frame_draw 1 _)

theorem frame_cast_oath_of_nissa : FrameAll cast_oath_of_nissa := by
  intro s t ht
  exact frame_trans (frame_mill 3 s) (frame_grabs _ _ t ht)

theorem frame_cast_once_upon_a_time : FrameAll cast_once_upon_a_time := by
  intro s t ht
  exact frame_trans (frame_mill 5 s) (frame_grabs _ _ t ht)

theorem frame_cast_opt : FrameAll cast_opt := by
  intro s t ht
  rcases Finset.mem_image.mp ht with ⟨u, hu, rfl⟩
  exact frame_trans (frame_scry1 s u hu) (frame_draw 1 u)

theorem frame_cast_primeval_titan : FrameAll cast_primeval_titan := by
  intro s t ht
  simp only [cast_primeval_titan, Finset.mem_singleton] at ht
  exact ht ▸ ⟨rfl, le_refl _, le_refl _, rfl⟩

theorem frame_cast_pyretic_ritual : FrameAll cast_pyretic_ritual := by
  intro s t ht
  simp only [cast_pyretic_ritual, Finset.mem_singleton] at ht
  exact ht ▸ frame_add_mana mRRR s

theorem frame_cast_relic_of_progenitus : FrameAll cast_relic_of_progenitus := by
  intro s t ht
  simp only [cast_relic_of_progenitus, Finset.mem_singleton] at ht
  exact ht ▸ ⟨rfl, le_refl _, le_refl _, rfl⟩

theorem frame_cast_sakura_tribe_elder : FrameAll cast_sakura_tribe_elder := by
  intro s t ht
  exact frame_fetchF "Forest" (some true) s t ht

theorem frame_cast_sakura_tribe_scout : FrameAll cast_sakura_tribe_scout := by
  intro s t ht
  simp only [cast_sakura_tribe_scout, Finset.mem_singleton] at ht
  exact ht ▸ ⟨rfl, le_refl _, le_refl _, rfl⟩

theorem frame_cast_search_for_tomorrow : FrameAll cast_search_for_tomorrow := by
  intro s t ht
  exact frame_fetchF "Forest" none s t ht

theorem frame_cast_summer_bloom : FrameAll cast_summer_bloom := by
  intro s t ht
  simp only [cast_summer_bloom, Finset.mem_singleton] at ht
  exact ht ▸ ⟨rfl, le_refl _, le_refl _, rfl⟩

theorem frame_cast_summoners_pact : FrameAll cast_summoners_pact := by
  intro s t ht
  unfold cast_summoners_pact at ht
  rcases Finset.mem_image.mp ht with ⟨u, hu, rfl⟩
  rcases Finset.mem_image.mp hu with ⟨c, _, rfl⟩
  exact ⟨rfl, le_refl _, le_refl _, rfl⟩

theorem frame_cast_through_the_breach : FrameAll cast_through_the_breach := by
  intro s t ht
  unfold cast_through_the_breach at ht
  split at ht
  · exact absurd ht (Finset.not_mem_empty t)
  · rw [Finset.mem_singleton] at ht
    exact ht ▸ ⟨rfl, le_refl _, le_refl _, rfl⟩

theorem frame_cast_uro : FrameAllO cast_uro := by
  intro s S t hS ht
  unfold cast_uro at hS
  rcases (mem_unionO _ _ hS t).mp ht with ⟨S1, hmem, htS1⟩
  simp only [List.mem_map] at hmem
  rcases hmem with ⟨l, _, hpl⟩
  exact frame_trans (frame_draw 1 s) (frame_playE l _ S1 t hpl htS1)

theorem frame_castHandlers :
    ∀ c h, castHandlers.lookup c = some h → FrameAllO h := by
  intro c h hl
  have hmem := lookup_mem hl
  simp only [castHandlers, List.mem_cons, List.not_mem_nil, or_false,
    Prod.mk.injEq] at hmem
  rcases hmem with ⟨_, rfl⟩ | ⟨_, rfl⟩ | ⟨_, rfl⟩ | ⟨_, rfl⟩ | ⟨_, rfl⟩ |
    ⟨_, rfl⟩ | ⟨_, rfl⟩ | ⟨_, rfl⟩ | ⟨_, rfl⟩ | ⟨_, rfl⟩ | ⟨_, rfl⟩ |
    ⟨_, rfl⟩ | ⟨_, rfl⟩ | ⟨_, rfl⟩ | ⟨_, rfl⟩ | ⟨_, rfl⟩ | ⟨_, rfl⟩ |
    ⟨_, rfl⟩ | ⟨_, rfl⟩ | ⟨_, rfl⟩ | ⟨_, rfl⟩ | ⟨_, rfl⟩ | ⟨_, rfl⟩ |
    ⟨_, rfl⟩ | ⟨_, rfl⟩ | ⟨_, rfl⟩
  · exact frame_someAll frame_cast_oath_of_nissa
  · exact frame_someAll frame_cast_amulet_of_vigor
  · exact frame_someAll frame_cast_ancient_stirrings
  · exact frame_someAll frame_cast_arboreal_grazer
  · exact frame_someAll frame_cast_azusa
  · exact frame_someAll frame_cast_sakura_tribe_elder
  · exact frame_someAll frame_cast_bond_of_flourishing
  · exact frame_someAll frame_cast_debug_titan
  · exact frame_someAll frame_cast_dryad
  · exact frame_someAll frame_cast_elvish_rejuvenator
  · exact frame_someAll frame_cast_explore
  · exact frame_someAll frame_cast_explore
  · exact frame_someAll frame_cast_llanowar_visionary
  · exact frame_someAll frame_cast_oath_of_nissa
  · exact frame_someAll frame_cast_once_upon_a_time
  · exact frame_someAll frame_cast_opt
  · exact frame_someAll frame_cast_primeval_titan
  · exact frame_someAll frame_cast_pyretic_ritual
  · exact frame_someAll frame_cast_relic_of_progenitus
  · exact frame_someAll frame_cast_sakura_tribe_elder
  · exact frame_someAll frame_cast_sakura_tribe_scout
  · exact frame_someAll frame_cast_search_for_tomorrow
  · exact frame_someAll frame_cast_summer_bloom
  · exact frame_someAll frame_cast_summoners_pact
  · exact frame_someAll frame_cast_through_the_breach
  · exact frame_cast_uro

theorem frame_cycle_once_upon_a_time : FrameAll cycle_once_upon_a_time := by
  intro s t ht
  unfold cycle_once_upon_a_time at ht
  split at ht
  · exact absurd ht (Finset.not_mem_empty t)
  · refine frame_trans (u := { s with spells_cast := s.spells_cast + 1 }) ?_
      (frame_cast_once_upon_a_time _ t ht)
    exact ⟨rfl, le_refl _, Nat.le_succ _, rfl⟩

theorem frame_cycleHandlers :
    ∀ c h, cycleHandlers.lookup c = some h → FrameAll h := by
  intro c h hl
  have hmem := lookup_mem hl
  simp only [cycleHandlers, List.mem_cons, List.not_mem_nil, or_false,
    Prod.mk.injEq] at hmem
  rcases hmem with ⟨_, rfl⟩ | ⟨_, rfl⟩ | ⟨_, rfl⟩ | ⟨_, rfl⟩ | ⟨_, rfl⟩ |
    ⟨_, rfl⟩ | ⟨_, rfl⟩
  · intro s t ht
    simp only [cycle_beneath_the_sands, Finset.mem_singleton] at ht
    exact ht ▸ frame_draw 1 s
  · intro s t ht
    simp only [cycle_ketria_triome, Finset.mem_singleton] at ht
    exact ht ▸ frame_draw 1 s
  · exact frame_cycle_once_upon_a_time
  · intro s t ht
    simp only [cycle_search_for_tomorrow, Finset.mem_singleton] at ht
    exact ht ▸ frame_suspendF _ _ s
  · intro s t ht
    simp only [cycle_simian_spirit_guide, Finset.mem_singleton] at ht
    exact ht ▸ frame_add_mana mR s
  · intro s t ht
    exact frame_grabs _ s t ht
  · intro s t ht
    simp only [cycle_tranquil_thicket, Finset.mem_singleton] at ht
    exact ht ▸ frame_draw 1 s

theorem frame_sacrificeHandlers :
    ∀ c h, sacrificeHandlers.lookup c = some h → FrameAll h := by
  intro c h hl
  have hmem := lookup_mem hl
  simp only [sacrificeHandlers, List.mem_cons, List.not_mem_nil, or_false,
    Prod.mk.injEq] at hmem
  rcases hmem with ⟨_, rfl⟩ | ⟨_, rfl⟩
  · intro s t ht
    unfold sacrifice_castle_garenbrig at ht
    split at ht
    · exact absurd ht (Finset.not_mem_empty t)
    · rw [Finset.mem_singleton] at ht
      exact ht ▸ frame_add_mana m6G s
  · intro s t ht
    simp only [sacrifice_relic_of_progenitus, Finset.mem_singleton] at ht
    exact ht ▸ frame_draw 1 s

theorem frame_castE (c : CardN) : FrameAllO (castE c) := by
  intro s S t hS ht
  unfold castE at hS
  split at hS
  · cases hS
    exact absurd ht (Finset.not_mem_empty t)
  · split at hS
    · cases hS
      exact absurd ht (Finset.not_mem_empty t)
    · split at hS
      · cases hS
        exact absurd ht (Finset.not_mem_empty t)
      · split at hS
        · cases hS
        · rename_i h hl
          refine frame_appO ?_ (frame_castHandlers c h hl) hS t ht
          intro u hu
          refine frame_trans (u := { s with
            hand := s.hand.erase c,
            notes := s.notes ++ ", cast",
            spells_cast := s.spells_cast + 1 }) ?_ (frame_payF _ _ u hu)
          exact ⟨rfl, le_refl _, Nat.le_succ _, rfl⟩

theorem frame_cycleT (c : CardN) : FrameAll (cycleT c) := by
  intro s t ht
  unfold cycleT at ht
  split at ht
  · exact absurd ht (Finset.not_mem_empty t)
  · split at ht
    · exact absurd ht (Finset.not_mem_empty t)
    · split at ht
      · exact absurd ht (Finset.not_mem_empty t)
      · refine frame_safe_getattr (fun h hl => frame_cycleHandlers c h hl) ?_ t ht
        intro u hu
        refine frame_trans (u := { s with
          hand := s.hand.erase c,
          notes := s.notes ++ ", cycle" }) ?_ (frame_payF _ _ u hu)
        exact ⟨rfl, le_refl _, le_refl _, rfl⟩

theorem frame_sacrificeE (c : CardN) : FrameAllO (sacrificeE c) := by
  intro s S t hS ht
  unfold sacrificeE at hS
  split at hS
  · cases hS
    exact absurd ht (Finset.not_mem_empty t)
  · split at hS
    · cases hS
      exact absurd ht (Finset.not_mem_empty t)
    · split at hS
      · cases hS
        exact absurd ht (Finset.not_mem_empty t)
      · unfold unsafe_getattr at hS
        split at hS
        · cases hS
        · rename_i h hl
          cases hS
          refine frame_appS ?_ (frame_sacrificeHandlers c h hl) t ht
          intro u hu
          refine frame_trans (u := { s with
            battlefield := s.battlefield.erase c,
            notes := s.notes ++ ", sacrifice" }) ?_ (frame_payF _ _ u hu)
          exact ⟨rfl, le_refl _, le_refl _, rfl⟩

theorem frame_cast_from_suspendE (c : CardN) : FrameAllO (cast_from_suspendE c) := by
  intro s S t hS ht
  unfold cast_from_suspendE at hS
  split at hS
  · cases hS
  · rename_i h hl
    refine frame_trans (u := { s with
      spells_cast := s.spells_cast + 1,
      notes := s.notes ++ ", cast from suspend" }) ?_
      (frame_castHandlers c h hl _ S t hS ht)
    exact ⟨rfl, le_refl _, Nat.le_succ _, rfl⟩

theorem frame_fold_cfs {s : GameState} :
    ∀ (l : List CardN) (acc : Option SSet) (T : SSet),
    (∀ S, acc = some S → ∀ u ∈ S, Frame s u) →
    l.foldl (fun a c => a.bind fun ss => appO ss (cast_from_suspendE c)) acc =
      some T →
    ∀ t ∈ T, Frame s t := by
  intro l
  induction l with
  | nil =>
      intro acc T hacc h
      exact hacc T h
  | cons c l ih =>
      intro acc T hacc h
      rw [List.foldl_cons] at h
      refine ih _ T ?_ h
      intro S hS u hu
      rcases Option.bind_eq_some.mp hS with ⟨S0, hS0, happ⟩
      exact frame_appO (hacc S0 hS0) (frame_cast_from_suspendE c) happ u hu

theorem frame_tick_downE : FrameAllO tick_downE := by
  intro s S t hS ht
  unfold tick_downE at hS
  split at hS
  · cases hS
    rw [Finset.mem_singleton] at ht
    exact ht ▸ frame_refl s
  · refine frame_fold_cfs _ _ S ?_ hS t ht
    intro S0 hS0 u hu
    cases hS0
    rw [Finset.mem_singleton] at hu
    subst hu
    split
    · exact ⟨rfl, le_refl _, le_refl _, rfl⟩
    · exact frame_refl s

theorem frame_pre_game_actions : FrameAll pre_game_actions := by
  intro s t ht
  unfold pre_game_actions at ht
  split at ht
  · rcases Finset.mem_insert.mp ht with h | h
    · exact h ▸ frame_noteF _ s
    · rcases Finset.mem_image.mp h with ⟨c, _, rfl⟩
      exact ⟨rfl, le_refl _, le_refl _, rfl⟩
  · rw [Finset.mem_singleton] at ht
    exact ht ▸ frame_noteF _ s

theorem killCreatures_fields (s : GameState) :
    (killCreatures s).deck_list = s.deck_list ∧
    (killCreatures s).deck_index = s.deck_index ∧
    (killCreatures s).spells_cast = s.spells_cast ∧
    (killCreatures s).turn = s.turn ∧
    (killCreatures s).hand = s.hand ∧
    (killCreatures s).mana_debt = s.mana_debt ∧
    (killCreatures s).suspended = s.suspended := by
  simp only [killCreatures]
  split <;> exact ⟨rfl, rfl, rfl, rfl, rfl, rfl, rfl⟩

theorem frame_passBase (s : GameState) :
    (passBase s).deck_list = s.deck_list ∧
    (passBase s).deck_index = s.deck_index ∧
    (passBase s).spells_cast = s.spells_cast ∧
    (passBase s).turn = s.turn + 1 := by
  have h := killCreatures_fields s
  exact ⟨h.1, h.2.1, h.2.2.1, rfl⟩

theorem frame_pass_turnE {s : GameState} {P : SSet} (h : pass_turnE s = some P) :
    ∀ t ∈ P, t.deck_list = s.deck_list ∧ s.deck_index ≤ t.deck_index ∧
      s.spells_cast ≤ t.spells_cast ∧ t.turn = s.turn + 1 := by
  intro t ht
  unfold pass_turnE at h
  split at h
  · cases h
    exact absurd ht (Finset.not_mem_empty t)
  · split at h
    · cases h
      exact absurd ht (Finset.not_mem_empty t)
    · rcases Option.map_eq_some'.mp h with ⟨ss3, htick, rfl⟩
      have hbase := frame_passBase s
      have h1 : ∀ u ∈ tap_out (passBase s), Frame (passBase s) u :=
        fun u hu => frame_tap_out _ u hu
      have h2 : ∀ u ∈ (if s.turn = 0 then
          appS (tap_out (passBase s)) pre_game_actions
          else tap_out (passBase s)), Frame (passBase s) u := by
        split
        · exact frame_appS h1 frame_pre_game_actions
        · exact h1
      have h3 : ∀ u ∈ ss3, Frame (passBase s) u :=
        frame_appO h2 frame_tick_downE htick
      have h4 : ∀ u ∈ (if s.mana_debt ≠ Mana.zero then
          appS ss3 (payF s.mana_debt) else ss3), Frame (passBase s) u := by
        split
        · exact frame_appS h3 (fun s' t' h' => frame_payF _ s' t' h')
        · exact h3
      have h5 : Frame (passBase s) t := by
        simp only [passFinish] at ht
        split at ht
        · exact h4 t ht
        · rcases Finset.mem_image.mp ht with ⟨u, hu, rfl⟩
          exact frame_trans (h4 u hu) (frame_draw 1 u)
      refine ⟨h5.1.trans hbase.1, ?_, ?_, h5.2.2.2.trans hbase.2.2.2⟩
      · rw [← hbase.2.1]
        exact h5.2.1
      · rw [← hbase.2.2.1]
        exact h5.2.2.1

theorem frame_next_statesE {mt : Nat} {s : GameState} {T : SSet}
    (h : next_statesE mt s = some T) :
    ∀ t ∈ T, t.deck_list = s.deck_list ∧ s.deck_index ≤ t.deck_index ∧
      s.spells_cast ≤ t.spells_cast ∧
      (t.turn = s.turn ∨ t.turn = s.turn + 1) := by
  intro t ht
  unfold next_statesE at h
  split at h
  · cases h
    rw [Finset.mem_singleton] at ht
    exact ht ▸ ⟨rfl, le_refl _, le_refl _, Or.inl rfl⟩
  · have main : ∀ (l : List (Option SSet)), unionO l = some T →
        (∀ o ∈ l, o ∈ passPart mt s ∨ o ∈ playPart s ∨ o ∈ castPart s ∨
          o ∈ cyclePart s ∨ o ∈ sacPart s ∨
          o = some (cycleT "Once Upon a Time" s)) →
        t.deck_list = s.deck_list ∧ s.deck_index ≤ t.deck_index ∧
        s.spells_cast ≤ t.spells_cast ∧
        (t.turn = s.turn ∨ t.turn = s.turn + 1) := by
      intro l hl hsub
      rcases (mem_unionO _ _ hl t).mp ht with ⟨S, hSl, htS⟩
      rcases hsub _ hSl with hp | hp | hp | hp | hp | hp
      · unfold passPart at hp
        split at hp
        · simp only [List.mem_singleton] at hp
          have := frame_pass_turnE hp.symm t htS
          exact ⟨this.1, this.2.1, this.2.2.1, Or.inr this.2.2.2⟩
        · simp at hp
      · unfold playPart at hp
        simp only [List.mem_map] at hp
        rcases hp with ⟨c, _, hc⟩
        have := frame_playE c s S t hc htS
        exact ⟨this.1, this.2.1, this.2.2.1, Or.inl this.2.2.2⟩
      · unfold castPart at hp
        simp only [List.mem_map] at hp
        rcases hp with ⟨c, _, hc⟩
        have := frame_castE c s S t hc htS
        exact ⟨this.1, this.2.1, this.2.2.1, Or.inl this.2.2.2⟩
      · unfold cyclePart at hp
        simp only [List.mem_map] at hp
        rcases hp with ⟨c, _, hc⟩
        have heq : S = cycleT c s := by
          injection hc.symm
        have := frame_cycleT c s t (heq ▸ htS)
        exact ⟨this.1, this.2.1, this.2.2.1, Or.inl this.2.2.2⟩
      · unfold sacPart at hp
        simp only [List.mem_map] at hp
        rcases hp with ⟨c, _, hc⟩
        have := frame_sacrificeE c s S t hc htS
        exact ⟨this.1, this.2.1, this.2.2.1, Or.inl this.2.2.2⟩
      · have heq : S = cycleT "Once Upon a Time" s := by
          injection hp
        have := frame_cycleT "Once Upon a Time" s t (heq ▸ htS)
        exact ⟨this.1, this.2.1, this.2.2.1, Or.inl this.2.2.2⟩
    split at h
    · refine main _ h ?_
      intro o ho
      simp only [List.mem_append, List.mem_singleton] at ho
      tauto
    · refine main _ h ?_
      intro o ho
      simp only [List.mem_append] at ho
      tauto

theorem poolOnly_tapF (c : CardN) (s t : GameState) (ht : t ∈ tapF c s) :
    t.deck_index = s.deck_index ∧ t.deck_list = s.deck_list := by
  by_cases hos : (oracle c).taps_for = []
  · simp only [tapF, hos, if_true] at ht
    rw [Finset.mem_singleton] at ht
    exact ht ▸ ⟨rfl, rfl⟩
  · simp only [tapF, hos, if_false, ite_false] at ht
    rcases List.mem_map.mp (List.mem_toFinset.mp ht) with ⟨m, _, rfl⟩
    exact ⟨rfl, rfl⟩

theorem poolOnly_fold_tapF (c : CardN) {α : Type} (l : List α) {s : GameState}
    (ss : SSet)
    (hss : ∀ u ∈ ss, u.deck_index = s.deck_index ∧ u.deck_list = s.deck_list) :
    ∀ u ∈ l.foldl (fun a _ => appS a (tapF c)) ss,
      u.deck_index = s.deck_index ∧ u.deck_list = s.deck_list := by
  induction l generalizing ss with
  | nil => exact hss
  | cons x l ih =>
      refine ih (appS ss (tapF c)) ?_
      intro u hu
      rcases Finset.mem_biUnion.mp hu with ⟨v, hv, huv⟩
      have h1 := hss v hv
      have h2 := poolOnly_tapF c v u huv
      exact ⟨h2.1.trans h1.1, h2.2.trans h1.2⟩

theorem fetch_forest_deck (tp : Option Bool) (s t : GameState)
    (ht : t ∈ fetchF "Forest" tp s) :
    t.deck_index = s.deck_index ∧ t.deck_list = s.deck_list := by
  simp only [fetchF] at ht
  split at ht
  · simp only [play_tapped] at ht
    have hlk : playHandlers.lookup "Forest" = none := rfl
    rw [hlk] at ht
    refine poolOnly_fold_tapF "Forest" _ _ ?_ t ht
    intro u hu
    rw [Finset.mem_singleton] at hu
    exact hu ▸ ⟨rfl, rfl⟩
  · simp only [play_untapped] at ht
    have hlk : playHandlers.lookup "Forest" = none := rfl
    rw [hlk] at ht
    have := poolOnly_tapF "Forest" _ t ht
    exact this

/-- Claim C7: successors never lose spells_cast and never move the turn
by more than one, for next_states as a whole and for each transition of
the library individually. -/
theorem claim_C7 :
    (∀ (mt : Nat) (s : GameState) (T : SSet) (t : GameState),
      next_statesE mt s = some T → t ∈ T →
      s.spells_cast ≤ t.spells_cast ∧ (t.turn = s.turn ∨ t.turn = s.turn + 1)) ∧
    (∀ (s : GameState) (P : SSet) (t : GameState), pass_turnE s = some P → t ∈ P →
      s.spells_cast ≤ t.spells_cast ∧ t.turn = s.turn + 1) ∧
    (∀ (c : CardN) (s : GameState) (S : SSet) (t : GameState),
      castE c s = some S → t ∈ S →
      s.spells_cast ≤ t.spells_cast ∧ t.turn = s.turn) ∧
    (∀ (c : CardN) (s t : GameState), t ∈ cycleT c s →
      s.spells_cast ≤ t.spells_cast ∧ t.turn = s.turn) ∧
    (∀ (c : CardN) (s : GameState) (S : SSet) (t : GameState),
      playE c s = some S → t ∈ S →
      s.spells_cast ≤ t.spells_cast ∧ t.turn = s.turn) ∧
    (∀ (c : CardN) (s : GameState) (S : SSet) (t : GameState),
      sacrificeE c s = some S → t ∈ S →
      s.spells_cast ≤ t.spells_cast ∧ t.turn = s.turn) ∧
    (∀ (n : Nat) (s : GameState),
      s.spells_cast ≤ (draw n s).spells_cast ∧ (draw n s).turn = s.turn ∧
      s.spells_cast ≤ (mill n s).spells_cast ∧ (mill n s).turn = s.turn) ∧
    (∀ (c : CardN) (s t : GameState), t ∈ fetchF c none s →
      s.spells_cast ≤ t.spells_cast ∧ t.turn = s.turn) ∧
    (∀ (s t : GameState), t ∈ tap_out s →
      s.spells_cast ≤ t.spells_cast ∧ t.turn = s.turn) := by
  refine ⟨?_, ?_, ?_, ?_, ?_, ?_, ?_, ?_, ?_⟩
  · intro mt s T t h ht
    have := frame_next_statesE h t ht
    exact ⟨this.2.2.1, this.2.2.2⟩
  · intro s P t h ht
    have := frame_pass_turnE h t ht
    exact ⟨this.2.2.1, this.2.2.2⟩
  · intro c s S t h ht
    have := frame_castE c s S t h ht
    exact ⟨this.2.2.1, this.2.2.2⟩
  · intro c s t ht
    have := frame_cycleT c s t ht
    exact ⟨this.2.2.1, this.2.2.2⟩
  · intro c s S t h ht
    have := frame_playE c s S t h ht
    exact ⟨this.2.2.1, this.2.2.2⟩
  · intro c s S t h ht
    have := frame_sacrificeE c s S t h ht
    exact ⟨this.2.2.1, this.2.2.2⟩
  · intro n s
    exact ⟨le_refl _, rfl, le_refl _, rfl⟩
  · intro c s t ht
    have := frame_fetchF c none s t ht
    exact ⟨this.2.2.1, this.2.2.2⟩
  · intro s t ht
    have := frame_tap_out s t ht
    exact ⟨this.2.2.1, this.2.2.2⟩

/-- Witness for claim C7 at a concrete successor of the example state. -/
theorem claim_C7_witness :
    exS.spells_cast ≤ c7t.spells_cast ∧
    (c7t.turn = exS.turn ∨ c7t.turn = exS.turn + 1) :=
  claim_C7.1 3 exS ((next_statesE 3 exS).getD ∅) c7t (by decide) (by decide)

/-- Counterexample to claim C10 as stated: fetch of a scry land (Temple
of Mystery) advances the deck cursor through the land's own play
handler, so fetch does not always leave the deck cursor unmoved. -/
theorem claim_C10_cex :
    exS.deck_index = 0 ∧
    1 ∈ (fetchF "Temple of Mystery" none exS).image GameState.deck_index := by
  exact ⟨rfl, by decide⟩

/-- Claim C10 as amended: every branch of next_states preserves
deck_list and never rewinds deck_index; grab moves a card to hand
without touching the deck list or cursor; fetch preserves the deck list
and never rewinds the cursor, and a fetched Forest — the only card the
code ever fetches — leaves the cursor unmoved, though a fetched scry
land may advance it. -/
theorem claim_C10 :
    (∀ (mt : Nat) (s : GameState) (T : SSet) (t : GameState),
      next_statesE mt s = some T → t ∈ T →
      t.deck_list = s.deck_list ∧ s.deck_index ≤ t.deck_index) ∧
    (∀ (c : CardN) (s : GameState),
      (grab c s).deck_list = s.deck_list ∧
      (grab c s).deck_index = s.deck_index ∧
      (grab c s).hand = c ::ₘ s.hand) ∧
    (∀ (c : CardN) (tp : Option Bool) (s t : GameState), t ∈ fetchF c tp s →
      t.deck_list = s.deck_list ∧ s.deck_index ≤ t.deck_index) ∧
    (∀ (tp : Option Bool) (s t : GameState), t ∈ fetchF "Forest" tp s →
      t.deck_index = s.deck_index) := by
  refine ⟨?_, ?_, ?_, ?_⟩
  · intro mt s T t h ht
    have := frame_next_statesE h t ht
    exact ⟨this.1, this.2.1⟩
  · intro c s
    exact ⟨rfl, rfl, rfl⟩
  · intro c tp s t ht
    have := frame_fetchF c tp s t ht
    exact ⟨this.1, this.2.1⟩
  · intro tp s t ht
    exact (fetch_forest_deck tp s t ht).1

/-- Witness for the amended claim C10 at concrete inputs. -/
theorem claim_C10_witness :
    (c7t.deck_list = exS.deck_list ∧ exS.deck_index ≤ c7t.deck_index) ∧
    (grab "Opt" exS).deck_list = exS.deck_list ∧
    c10f.deck_index = exS.deck_index :=
  ⟨claim_C10.1 3 exS ((next_statesE 3 exS).getD ∅) c7t (by decide) (by decide),
    (claim_C10.2.1 "Opt" exS).1,
    claim_C10.2.2.2 (some true) exS c10f (by decide)⟩

theorem done_appS {s : GameState} {ss : SSet} {f : GameState → SSet}
    (hss : ∀ u ∈ ss, u.done = s.done) (hf : DoneAll f) :
    ∀ t ∈ appS ss f, t.done = s.done := by
  intro t ht
  rcases Finset.mem_biUnion.mp ht with ⟨u, hu, htu⟩
  exact (hf u t htu).trans (hss u hu)

theorem done_appO {s : GameState} {ss : SSet} {f : GameState → Option SSet}
    {T : SSet} (hss : ∀ u ∈ ss, u.done = s.done) (hf : DoneAllO f)
    (h : appO ss f = some T) : ∀ t ∈ T, t.done = s.done := by
  intro t ht
  unfold appO at h
  split at h
  · cases h
    rcases Finset.mem_biUnion.mp ht with ⟨u, hu, htu⟩
    rename_i hall
    rcases Option.isSome_iff_exists.mp (hall u hu) with ⟨S, hS⟩
    rw [hS] at htu
    simp only [Option.getD_some] at htu
    exact (hf u S t hS htu).trans (hss u hu)
  · cases h

theorem done_payF (k : Mana) : DoneAll (payF k) := by
  intro s t ht
  rcases Finset.mem_image.mp ht with ⟨m, _, rfl⟩
  rfl

theorem done_tapF (c : CardN) : DoneAll (tapF c) := by
  intro s t ht
  by_cases hos : (oracle c).taps_for = []
  · simp only [tapF, hos, if_true] at ht
    rw [Finset.mem_singleton] at ht
    exact ht ▸ rfl
  · simp only [tapF, hos, if_false, ite_false] at ht
    rcases List.mem_map.mp (List.mem_toFinset.mp ht) with ⟨m, _, rfl⟩
    rfl

theorem done_tap_out : DoneAll tap_out := by
  intro s t ht
  rcases Finset.mem_image.mp ht with ⟨p, _, rfl⟩
  rfl

theorem done_scry1 : DoneAll scry1 := by
  intro s t ht
  rcases Finset.mem_insert.mp ht with h | h
  · exact h ▸ rfl
  · rw [Finset.mem_singleton] at h
    exact h ▸ rfl

theorem done_bounce_land : DoneAll bounce_land := by
  intro s t ht
  rcases Finset.mem_image.mp ht with ⟨c, _, rfl⟩
  rfl

theorem done_grabs (cs : Multiset CardN) : ∀ s t, t ∈ grabs cs s → t.done = s.done := by
  intro s t ht
  rcases Finset.mem_image.mp ht with ⟨c, _, rfl⟩
  rfl

theorem done_fold_appS {f : GameState → SSet} (hf : DoneAll f) {α : Type}
    (l : List α) {s : GameState} (ss : SSet) (hss : ∀ u ∈ ss, u.done = s.done) :
    ∀ u ∈ l.foldl (fun a _ => appS a f) ss, u.done = s.done := by
  induction l generalizing ss with
  | nil => exact hss
  | cons x l ih => exact ih (appS ss f) (done_appS hss hf)

theorem done_safe_getattr {s : GameState} {ss : SSet}
    {oh : Option (GameState → SSet)} (hh : ∀ h, oh = some h → DoneAll h)
    (hss : ∀ u ∈ ss, u.done = s.done) : ∀ t ∈ safe_getattr oh ss, t.done = s.done := by
  cases oh with
  | none => exact hss
  | some h => exact done_appS hss (hh h rfl)

theorem done_playHandlers : ∀ c h, playHandlers.lookup c = some h → DoneAll h := by
  intro c h hl
  have hmem := lookup_mem hl
  simp only [playHandlers, List.mem_cons, List.not_mem_nil, or_false,
    Prod.mk.injEq] at hmem
  rcases hmem with ⟨_, rfl⟩ | ⟨_, rfl⟩ | ⟨_, rfl⟩ | ⟨_, rfl⟩ | ⟨_, rfl⟩ |
    ⟨_, rfl⟩ | ⟨_, rfl⟩
  · exact fun s t ht => done_bounce_land s t ht
  · intro s t ht
    simp only [play_crumbling_vestige, Finset.mem_singleton] at ht
    exact ht ▸ rfl
  · intro s t ht
    by_cases hc : 2 < Multiset.card (s.battlefield.filter fun c => isLand c = true)
    · simp only [play_lotus_field, hc, if_true] at ht
      rcases Finset.mem_image.mp ht with ⟨ts, _, rfl⟩
      rfl
    · simp only [play_lotus_field, hc, if_false] at ht
      rw [Finset.mem_singleton] at ht
      exact ht ▸ rfl
  · exact fun s t ht => done_bounce_land s t ht
  · exact fun s t ht => done_bounce_land s t ht
  · exact done_scry1
  · exact done_scry1

theorem done_play_tapped (c : CardN) : DoneAll (play_tapped c) := by
  intro s t ht
  simp only [play_tapped] at ht
  refine done_safe_getattr (fun h hl => done_playHandlers c h hl)
    (done_fold_appS (done_tapF c) _ _ ?_) t ht
  intro u hu
  rw [Finset.mem_singleton] at hu
  exact hu ▸ rfl

theorem done_play_untapped (c : CardN) : DoneAll (play_untapped c) := by
  intro s t ht
  simp only [play_untapped] at ht
  refine done_safe_getattr (fun h hl => done_playHandlers c h hl) ?_ t ht
  intro u hu
  exact (done_tapF c _ u hu).trans rfl

theorem done_fetchF (c : CardN) (tp : Option Bool) : DoneAll (fetchF c tp) := by
  intro s t ht
  simp only [fetchF] at ht
  split at ht
  · exact (done_play_tapped c _ t ht).trans rfl
  · exact (done_play_untapped c _ t ht).trans rfl

theorem done_playE (c : CardN) : DoneAllO (playE c) := by
  intro s S t hS ht
  unfold playE at hS
  split at hS
  · cases hS
  · split at hS
    · cases hS
      cases ht
    · split at hS
      · split at hS
        · cases hS
        · cases hS
          split at ht
          · exact (done_play_tapped c _ t ht).trans rfl
          · exact (done_play_untapped c _ t ht).trans rfl
      · cases hS
        exact (done_play_tapped c _ t ht).trans rfl
      · cases hS
        exact (done_play_untapped c _ t ht).trans rfl

theorem done_cast_oath_of_nissa : DoneAll cast_oath_of_nissa := by
  intro s t ht
  exact (done_grabs _ _ t ht).trans rfl

theorem done_cast_once_upon_a_time : DoneAll cast_once_upon_a_time := by
  intro s t ht
  exact (done_grabs _ _ t ht).trans rfl

theorem done_cast_sakura_tribe_elder : DoneAll cast_sakura_tribe_elder := by
  intro s t ht
  exact done_fetchF "Forest" (some true) s t ht

theorem done_cast_explore : DoneAll cast_explore := by
  intro s t ht
  simp only [cast_explore, Finset.mem_singleton] at ht
  exact ht ▸ rfl

theorem done_cast_uro : DoneAllO cast_uro := by
  intro s S t hS ht
  unfold cast_uro at hS
  rcases (mem_unionO _ _ hS t).mp ht with ⟨S1, hmem, htS1⟩
  simp only [List.mem_map] at hmem
  rcases hmem with ⟨l, _, hpl⟩
  exact (done_playE l _ S1 t hpl htS1).trans rfl

theorem done_someAll {f : GameState → SSet} (hf : DoneAll f) :
    DoneAllO fun s => some (f s) := by
  intro s S t hS ht
  cases hS
  exact hf s t ht

theorem done_castHandlers :
    ∀ c h, castHandlers.lookup c = some h →
      c ∉ (["Primeval Titan", "Debug Titan", "Through the Breach"] : List CardN) →
      DoneAllO h := by
  intro c h hl hnot
  have hmem := lookup_mem hl
  simp only [castHandlers, List.mem_cons, List.not_mem_nil, or_false,
    Prod.mk.injEq] at hmem
  simp only [List.mem_cons, List.not_mem_nil, or_false] at hnot
  push_neg at hnot
  rcases hmem with ⟨_, rfl⟩ | ⟨_, rfl⟩ | ⟨_, rfl⟩ | ⟨_, rfl⟩ | ⟨_, rfl⟩ |
    ⟨_, rfl⟩ | ⟨_, rfl⟩ | ⟨heq, rfl⟩ | ⟨_, rfl⟩ | ⟨_, rfl⟩ | ⟨_, rfl⟩ |
    ⟨_, rfl⟩ | ⟨_, rfl⟩ | ⟨_, rfl⟩ | ⟨_, rfl⟩ | ⟨_, rfl⟩ | ⟨heq, rfl⟩ |
    ⟨_, rfl⟩ | ⟨_, rfl⟩ | ⟨_, rfl⟩ | ⟨_, rfl⟩ | ⟨_, rfl⟩ | ⟨_, rfl⟩ |
    ⟨_, rfl⟩ | ⟨heq, rfl⟩ | ⟨_, rfl⟩
  · exact done_someAll done_cast_oath_of_nissa
  · refine done_someAll ?_
    intro s t ht
    simp only [cast_amulet_of_vigor, Finset.mem_singleton] at ht
    exact ht ▸ rfl
  · refine done_someAll ?_
    intro s t ht
    exact (done_grabs _ _ t ht).trans rfl
  · refine done_someAll ?_
    intro s t ht
    rcases Finset.mem_biUnion.mp ht with ⟨l, _, htl⟩
    exact done_play_tapped l s t htl
  · refine done_someAll ?_
    intro s t ht
    unfold cast_azusa_lost_but_seeking at ht
    split at ht
    · exact absurd ht (Finset.not_mem_empty t)
    · rw [Finset.mem_singleton] at ht
      exact ht ▸ rfl
  · exact done_someAll done_cast_sakura_tribe_elder
  · refine done_someAll ?_
    intro s t ht
    exact (done_grabs _ _ t ht).trans rfl
  · exact absurd heq (hnot.2.1)
  · refine done_someAll ?_
    intro s t ht
    simp only [cast_dryad_of_the_ilysian_grove, Finset.mem_singleton] at ht
    exact ht ▸ rfl
  · refine done_someAll ?_
    intro s t ht
    rcases Finset.mem_biUnion.mp ht with ⟨l, _, htl⟩
    exact (done_play_tapped l _ t htl).trans rfl
  · exact done_someAll done_cast_explore
  · exact done_someAll done_cast_explore
  · refine done_someAll ?_
    intro s t ht
    simp only [cast_llanowar_visionary, Finset.mem_singleton] at ht
    exact ht ▸ rfl
  · exact done_someAll done_cast_oath_of_nissa
  · exact done_someAll done_cast_once_upon_a_time
  · refine done_someAll ?_
    intro s t ht
    rcases Finset.mem_image.mp ht with ⟨u, hu, rfl⟩
    exact done_scry1 s u hu
  · exact absurd heq (hnot.1)
  · refine done_someAll ?_
    intro s t ht
    simp only [cast_pyretic_ritual, Finset.mem_singleton] at ht
    exact ht ▸ rfl
  · refine done_someAll ?_
    intro s t ht
    simp only [cast_relic_of_progenitus, Finset.mem_singleton] at ht
    exact ht ▸ rfl
  · exact done_someAll done_cast_sakura_tribe_elder
  · refine done_someAll ?_
    intro s t ht
    simp only [cast_sakura_tribe_scout, Finset.mem_singleton] at ht
    exact ht ▸ rfl
  · refine done_someAll ?_
    intro s t ht
    exact done_fetchF "Forest" none s t ht

  · refine done_someAll ?_
    intro s t ht
    simp only [cast_summer_bloom, Finset.mem_singleton] at ht
    exact ht ▸ rfl
  · refine done_someAll ?_
    intro s t ht
    unfold cast_summoners_pact at ht
    rcases Finset.mem_image.mp ht with ⟨u, hu, rfl⟩
    rcases Finset.mem_image.mp hu with ⟨cc, _, rfl⟩
    rfl
  · exact absurd heq (hnot.2.2)
  · exact done_cast_uro

theorem done_cycleHandlers :
    ∀ c h, cycleHandlers.lookup c = some h → DoneAll h := by
  intro c h hl
  have hmem := lookup_mem hl
  simp only [cycleHandlers, List.mem_cons, List.not_mem_nil, or_false,
    Prod.mk.injEq] at hmem
  rcases hmem with ⟨_, rfl⟩ | ⟨_, rfl⟩ | ⟨_, rfl⟩ | ⟨_, rfl⟩ | ⟨_, rfl⟩ |
    ⟨_, rfl⟩ | ⟨_, rfl⟩
  · intro s t ht
    simp only [cycle_beneath_the_sands, Finset.mem_singleton] at ht
    exact ht ▸ rfl
  · intro s t ht
    simp only [cycle_ketria_triome, Finset.mem_singleton] at ht
    exact ht ▸ rfl
  · intro s t ht
    unfold cycle_once_upon_a_time at ht
    split at ht
    · exact absurd ht (Finset.not_mem_empty t)
    · exact (done_cast_once_upon_a_time _ t ht).trans rfl
  · intro s t ht
    simp only [cycle_search_for_tomorrow, Finset.mem_singleton] at ht
    exact ht ▸ rfl
  · intro s t ht
    simp only [cycle_simian_spirit_guide, Finset.mem_singleton] at ht
    exact ht ▸ rfl
  · intro s t ht
    exact done_grabs _ s t ht

  · intro s t ht
    simp only [cycle_tranquil_thicket, Finset.mem_singleton] at ht
    exact ht ▸ rfl

theorem done_sacrificeHandlers :
    ∀ c h, sacrificeHandlers.lookup c = some h → DoneAll h := by
  intro c h hl
  have hmem := lookup_mem hl
  simp only [sacrificeHandlers, List.mem_cons, List.not_mem_nil, or_false,
    Prod.mk.injEq] at hmem
  rcases hmem with ⟨_, rfl⟩ | ⟨_, rfl⟩
  · intro s t ht
    unfold sacrifice_castle_garenbrig at ht
    split at ht
    · exact absurd ht (Finset.not_mem_empty t)
    · rw [Finset.mem_singleton] at ht
      exact ht ▸ rfl
  · intro s t ht
    simp only [sacrifice_relic_of_progenitus, Finset.mem_singleton] at ht
    exact ht ▸ rfl

/-- Claim C6: done states and overflowed states are terminal — their
next_states is the singleton of the state itself; the done flag is set
by the cast handlers for Primeval Titan, the debug titan, and Through
the Breach (the latter only with a Titan in hand); and no other handler
of any dispatch table changes the done flag. -/
theorem claim_C6 :
    (∀ (mt : Nat) (s : GameState), terminal s → next_statesE mt s = some {s}) ∧
    (∀ s : GameState,
      cast_primeval_titan s = {({ s with done := true } : GameState)}) ∧
    (∀ s : GameState,
      cast_debug_titan s = {({ s with done := true } : GameState)}) ∧
    (∀ s : GameState, "Primeval Titan" ∈ s.hand →
      cast_through_the_breach s = {({ s with done := true } : GameState)}) ∧
    (∀ s : GameState, "Primeval Titan" ∉ s.hand →
      cast_through_the_breach s = ∅) ∧
    (∀ (c : CardN) (h : GameState → Option SSet), castHandlers.lookup c = some h →
      c ∉ (["Primeval Titan", "Debug Titan", "Through the Breach"] : List CardN) →
      ∀ (s : GameState) (S : SSet) (t : GameState), h s = some S → t ∈ S →
        t.done = s.done) ∧
    (∀ (c : CardN) (h : GameState → SSet), cycleHandlers.lookup c = some h →
      ∀ (s t : GameState), t ∈ h s → t.done = s.done) ∧
    (∀ (c : CardN) (h : GameState → SSet), playHandlers.lookup c = some h →
      ∀ (s t : GameState), t ∈ h s → t.done = s.done) ∧
    (∀ (c : CardN) (h : GameState → SSet), sacrificeHandlers.lookup c = some h →
      ∀ (s t : GameState), t ∈ h s → t.done = s.done) := by
  refine ⟨?_, fun s => rfl, fun s => rfl, ?_, ?_, ?_, ?_, ?_, ?_⟩
  · intro mt s ht
    unfold next_statesE
    rw [if_pos ht]
  · intro s hin
    unfold cast_through_the_breach
    rw [if_neg (by simpa using hin)]
  · intro s hout
    unfold cast_through_the_breach
    rw [if_pos (by simpa using hout)]
  · exact fun c h hl hnot s S t hS ht => done_castHandlers c h hl hnot s S t hS ht
  · exact fun c h hl s t ht => done_cycleHandlers c h hl s t ht
  · exact fun c h hl s t ht => done_playHandlers c h hl s t ht
  · exact fun c h hl s t ht => done_sacrificeHandlers c h hl s t ht

/-- Witness for claim C6 at concrete inputs: a done state is a fixed
point of next_states, Through the Breach wins exactly with a Titan in
hand, and the Explore handler leaves the done flag alone. -/
theorem claim_C6_witness :
    next_statesE 3 termS = some {termS} ∧
    cast_through_the_breach c6h = {({ c6h with done := true } : GameState)} ∧
    cast_through_the_breach exS = ∅ ∧
    c6t.done = exS.done :=
  ⟨claim_C6.1 3 termS (by decide),
   claim_C6.2.2.2.1 c6h (by decide),
   claim_C6.2.2.2.2.1 exS (by decide),
   claim_C6.2.2.2.2.2.1 "Explore" (fun s => some (cast_explore s)) rfl (by decide)
     exS (cast_explore exS) c6t rfl (by decide)⟩

theorem mem_appO {ss : SSet} {f : GameState → Option SSet} {T : SSet}
    (h : appO ss f = some T) (t : GameState) :
    t ∈ T ↔ ∃ u ∈ ss, ∃ S, f u = some S ∧ t ∈ S := by
  unfold appO at h
  split at h
  · cases h
    rename_i hall
    rw [Finset.mem_biUnion]
    constructor
    · rintro ⟨u, hu, htu⟩
      rcases Option.isSome_iff_exists.mp (hall u hu) with ⟨S, hS⟩
      rw [hS] at htu
      exact ⟨u, hu, S, hS, by simpa using htu⟩
    · rintro ⟨u, hu, S, hS, htS⟩
      exact ⟨u, hu, by simp [hS, htS]⟩
  · cases h

theorem midC4_passBase (s : GameState) : MidC4 s (passBase s) := by
  have h := killCreatures_fields s
  exact ⟨rfl, rfl, rfl, h.2.1, h.2.2.2.2.2.2⟩

theorem midC4_tap_out {s u : GameState} (hu : MidC4 s u) :
    ∀ t ∈ tap_out u, MidC4 s t := by
  intro t ht
  rcases Finset.mem_image.mp ht with ⟨p, _, rfl⟩
  exact hu

theorem midC4_pre_game {s u : GameState} (hu : MidC4 s u) :
    ∀ t ∈ pre_game_actions u, MidC4 s t := by
  intro t ht
  unfold pre_game_actions at ht
  split at ht
  · rcases Finset.mem_insert.mp ht with h | h
    · exact h ▸ hu
    · rcases Finset.mem_image.mp h with ⟨c, _, rfl⟩
      exact hu
  · rw [Finset.mem_singleton] at ht
    exact ht ▸ hu

theorem midC4_payF {s u : GameState} (k : Mana) (hu : MidC4 s u) :
    ∀ t ∈ payF k u, MidC4 s t := by
  intro t ht
  rcases Finset.mem_image.mp ht with ⟨m, _, rfl⟩
  exact hu

theorem claim_C4_cex :
    newLandDrops (killCreatures c4s) = 1 ∧
    (pass_turnE c4s).isSome ∧
    ((pass_turnE c4s).getD ∅) ≠ ∅ ∧
    ((pass_turnE c4s).getD ∅).filter
      (fun t => t.land_drops = newLandDrops (killCreatures c4s)) = ∅ := by
  refine ⟨rfl, by decide, by decide, by decide⟩

/-- Claim C4 as amended: pass_turn returns the empty set whenever turn
is at least 1 with an empty battlefield, or turn is below 2 with nonzero
mana debt; and on states with no suspended spells every successor has
land_drops recomputed as 1 + 2·Azusa + Dryad + Scout over the surviving
(post-kill) battlefield, the turn bumped by exactly one, the mana debt
zeroed (the pool and debt are reset on the base state before tapping out
and paying the stored debt), and the deck cursor advanced by exactly one
card unless on the play at turn zero.  (With suspended spells the cast
from suspend may change land_drops, as the counterexample shows.) -/
theorem claim_C4 :
    (∀ s : GameState, 1 ≤ s.turn → s.battlefield = 0 → pass_turnE s = some ∅) ∧
    (∀ s : GameState, s.turn < 2 → s.mana_debt ≠ Mana.zero →
      pass_turnE s = some ∅) ∧
    (∀ s : GameState, (passBase s).mana_pool = Mana.zero ∧
      (passBase s).mana_debt = Mana.zero ∧
      (passBase s).land_drops =
        1 + 2 * (killCreatures s).battlefield.count "Azusa, Lost but Seeking" +
        (killCreatures s).battlefield.count "Dryad of the Ilysian Grove" +
        (killCreatures s).battlefield.count "Sakura-Tribe Scout") ∧
    (∀ (s : GameState) (P : SSet) (t : GameState), s.suspended = [] →
      pass_turnE s = some P → t ∈ P →
      t.land_drops = newLandDrops (killCreatures s) ∧
      t.turn = s.turn + 1 ∧
      t.mana_debt = Mana.zero ∧
      t.deck_index = (if s.on_the_play = true ∧ s.turn = 0 then s.deck_index
        else s.deck_index + 1)) := by
  refine ⟨?_, ?_, ?_, ?_⟩
  · intro s h1 h2
    unfold pass_turnE
    rw [if_pos ⟨by omega, h2⟩]
  · intro s h1 h2
    unfold pass_turnE
    by_cases hA : s.turn ≠ 0 ∧ s.battlefield = 0
    · rw [if_pos hA]
    · rw [if_neg hA, if_pos ⟨h1, h2⟩]
  · intro s
    exact ⟨rfl, rfl, rfl⟩
  · intro s P t hsusp hP ht
    unfold pass_turnE at hP
    split at hP
    · cases hP
      exact absurd ht (Finset.not_mem_empty t)
    · split at hP
      · cases hP
        exact absurd ht (Finset.not_mem_empty t)
      · rcases Option.map_eq_some'.mp hP with ⟨ss3, htick, rfl⟩
        have h1 : ∀ u ∈ tap_out (passBase s), MidC4 s u :=
          midC4_tap_out (midC4_passBase s)
        have h2 : ∀ u ∈ (if s.turn = 0 then
            appS (tap_out (passBase s)) pre_game_actions
            else tap_out (passBase s)), MidC4 s u := by
          split
          · intro u hu
            rcases Finset.mem_biUnion.mp hu with ⟨v, hv, huv⟩
            exact midC4_pre_game (h1 v hv) u huv
          · exact h1
        have h3 : ∀ u ∈ ss3, MidC4 s u := by
          intro u hu
          rcases (mem_appO htick u).mp hu with ⟨v, hv, S, hS, huS⟩
          have hvm := h2 v hv
          have hvs : v.suspended = [] := hvm.2.2.2.2.trans hsusp
          unfold tick_downE at hS
          rw [if_pos hvs] at hS
          cases hS
          rw [Finset.mem_singleton] at huS
          exact huS ▸ hvm
        have h4 : ∀ u ∈ (if s.mana_debt ≠ Mana.zero then
            appS ss3 (payF s.mana_debt) else ss3), MidC4 s u := by
          split
          · intro u hu
            rcases Finset.mem_biUnion.mp hu with ⟨v, hv, huv⟩
            exact midC4_payF _ (h3 v hv) u huv
          · exact h3
        simp only [passFinish] at ht
        by_cases hotp : s.on_the_play = true ∧ s.turn = 0
        · rw [if_pos hotp] at ht
          have := h4 t ht
          rw [if_pos hotp]
          exact ⟨this.1, this.2.1, this.2.2.1, this.2.2.2.1⟩
        · rw [if_neg hotp] at ht
          rcases Finset.mem_image.mp ht with ⟨u, hu, rfl⟩
          have := h4 u hu
          rw [if_neg hotp]
          refine ⟨this.1, this.2.1, this.2.2.1, ?_⟩
          show u.deck_index + 1 = s.deck_index + 1
          rw [this.2.2.2.1]

/-- Witness for the amended claim C4: the pass_turn successor of the
example state (no suspended spells) carries the recomputed land drops,
the bumped turn, a cleared debt, and one more drawn card. -/
theorem claim_C4_witness :
    c7t.land_drops = newLandDrops (killCreatures exS) ∧
    c7t.turn = exS.turn + 1 ∧
    c7t.mana_debt = Mana.zero ∧
    c7t.deck_index = (if exS.on_the_play = true ∧ exS.turn = 0 then exS.deck_index
      else exS.deck_index + 1) :=
  claim_C4.2.2.2 exS ((pass_turnE exS).getD ∅) c7t (by decide) (by decide) (by decide)

theorem wCard_le (c : CardN) : wCard c ≤ 8 := by
  unfold wCard
  split <;> omega

theorem wCard_pos (c : CardN) : 1 ≤ wCard c := by
  unfold wCard
  split <;> omega

theorem vCard_pos (c : CardN) : 1 ≤ vCard c := by
  unfold vCard
  split
  · have h1 := wCard_pos c
    have h2 : wCard c ≠ 1 := by unfold wCard; split <;> omega
    omega
  · omega

theorem vCard_le (c : CardN) : vCard c ≤ wCard c := by
  unfold vCard
  split
  · omega
  · exact wCard_pos c

theorem land_gap (c : CardN) (h : isLand c = true) : vCard c + 1 = wCard c := by
  unfold vCard
  rw [if_pos h]
  have h2 : 2 ≤ wCard c := by unfold wCard; split <;> omega
  omega

theorem handW_cons (c : CardN) (m : Multiset CardN) :
    handW (c ::ₘ m) = wCard c + handW m := by
  unfold handW
  rw [Multiset.map_cons, Multiset.sum_cons]

theorem handW_add (a b : Multiset CardN) :
    handW (a + b) = handW a + handW b := by
  unfold handW
  rw [Multiset.map_add, Multiset.sum_add]

theorem handW_erase {c : CardN} {m : Multiset CardN} (h : c ∈ m) :
    handW m = wCard c + handW (m.erase c) := by
  conv_lhs => rw [← Multiset.cons_erase h]
  rw [handW_cons]

theorem bfW_cons (c : CardN) (m : Multiset CardN) :
    bfW (c ::ₘ m) = vCard c + bfW m := by
  unfold bfW
  rw [Multiset.map_cons, Multiset.sum_cons]

theorem bfW_erase {c : CardN} {m : Multiset CardN} (h : c ∈ m) :
    bfW m = vCard c + bfW (m.erase c) := by
  conv_lhs => rw [← Multiset.cons_erase h]
  rw [bfW_cons]

theorem bfW_le_sub (a b : Multiset CardN) : bfW (a - b) ≤ bfW a := by
  unfold bfW
  rcases Multiset.le_iff_exists_add.mp (Multiset.sub_le_self a b) with ⟨c, hc⟩
  conv_rhs => rw [hc]
  rw [Multiset.map_add, Multiset.sum_add]
  exact Nat.le_add_right _ _

theorem handW_ofList (l : List CardN) :
    handW (Multiset.ofList l) ≤ 8 * l.length := by
  induction l with
  | nil => simp [handW]
  | cons c l ih =>
      have : Multiset.ofList (c :: l) = c ::ₘ Multiset.ofList l := rfl
      rw [this, handW_cons]
      have := wCard_le c
      simp only [List.length_cons]
      omega

theorem top_length (n : Nat) (s : GameState) :
    (top n s).length = min n (s.deck_list.length - s.deck_index) := by
  unfold top
  rw [List.length_take, List.length_drop]

theorem measW_draw (n : Nat) (s : GameState) : measW (draw n s) ≤ measW s := by
  unfold measW draw
  simp only
  rw [handW_add]
  have h1 := handW_ofList (top n s)
  have h2 := top_length n s
  have h3 : s.deck_list.length - (s.deck_index + n) =
      (s.deck_list.length - s.deck_index) - n := by omega
  omega

theorem measW_mill (n : Nat) (s : GameState) : measW (mill n s) ≤ measW s := by
  unfold measW mill
  simp only
  have h3 : s.deck_list.length - (s.deck_index + n) =
      (s.deck_list.length - s.deck_index) - n := by omega
  omega

theorem measW_grab (c : CardN) (s : GameState) : measW (grab c s) = measW s + wCard c := by
  unfold measW grab
  simp only
  rw [handW_cons]
  omega

theorem mem_top_deck {c : CardN} {n : Nat} {s : GameState}
    (h : c ∈ top n s) : 1 ≤ s.deck_list.length - s.deck_index ∧ 1 ≤ n := by
  have hlen : (top n s).length ≠ 0 := by
    intro h0
    rw [List.length_eq_zero] at h0
    rw [h0] at h
    cases h
  rw [top_length] at hlen
  omega

theorem measW_grab_mill {c : CardN} {n : Nat} {s : GameState} (h : c ∈ top n s) :
    measW (grab c (mill n s)) ≤ measW s := by
  rw [measW_grab]
  have h1 := mem_top_deck h
  have h2 := wCard_le c
  unfold measW mill
  simp only
  have h3 : s.deck_list.length - (s.deck_index + n) + 1 ≤
      s.deck_list.length - s.deck_index := by omega
  omega

theorem measW_mill_exact (n : Nat) (s : GameState) :
    measW (mill n s) + 32 * min n (s.deck_list.length - s.deck_index) = measW s := by
  unfold measW mill
  simp only
  omega

theorem measW_payF (k : Mana) (s t : GameState) (ht : t ∈ payF k s) :
    measW t = measW s := by
  rcases Finset.mem_image.mp ht with ⟨m, _, rfl⟩
  rfl

theorem measW_tapF (c : CardN) (s t : GameState) (ht : t ∈ tapF c s) :
    measW t = measW s := by
  by_cases hos : (oracle c).taps_for = []
  · simp only [tapF, hos, if_true] at ht
    rw [Finset.mem_singleton] at ht
    exact ht ▸ rfl
  · simp only [tapF, hos, if_false, ite_false] at ht
    rcases List.mem_map.mp (List.mem_toFinset.mp ht) with ⟨m, _, rfl⟩
    rfl

theorem measW_tap_out (s t : GameState) (ht : t ∈ tap_out s) :
    measW t = measW s := by
  rcases Finset.mem_image.mp ht with ⟨p, _, rfl⟩
  rfl

theorem measW_scry1 (s t : GameState) (ht : t ∈ scry1 s) :
    measW t ≤ measW s := by
  rcases Finset.mem_insert.mp ht with h | h
  · exact h ▸ measW_mill 1 s
  · rw [Finset.mem_singleton] at h
    exact h ▸ le_refl _

theorem measW_bounce_land (s t : GameState) (ht : t ∈ bounce_land s) :
    measW t ≤ measW s + 1 := by
  rcases Finset.mem_image.mp ht with ⟨c, hc, rfl⟩
  rw [Multiset.mem_toFinset, Multiset.mem_filter] at hc
  have hv := bfW_erase hc.1
  have hg := land_gap c hc.2
  unfold measW
  simp only
  rw [handW_cons]
  omega

theorem mem_bestOf {c : CardN} {m : Multiset CardN} (h : c ∈ bestOf m) : c ∈ m := by
  unfold bestOf at h
  split at h
  · cases h
  · rename_i x l heq
    rw [Multiset.mem_singleton] at h
    subst h
    have : c ∈ msort m.dedup := by
      rw [heq]
      exact List.mem_cons_self c l
    exact Multiset.mem_dedup.mp ((mem_msort c _).mp this)

theorem mem_selBest {b : Bool} {c : CardN} {m : Multiset CardN}
    (h : c ∈ selBest b m) : c ∈ m := by
  unfold selBest at h
  split at h
  · exact mem_bestOf h
  · exact h

theorem measW_grabs_top {X : Multiset CardN} {n : Nat} {s : GameState}
    (hX : ∀ c ∈ X, c ∈ top n s) :
    ∀ t ∈ grabs X (mill n s), measW t ≤ measW s := by
  intro t ht
  rcases Finset.mem_image.mp ht with ⟨c, hc, rfl⟩
  exact measW_grab_mill (hX c (Multiset.mem_toFinset.mp hc))

theorem measW_playHandlers :
    ∀ c h, playHandlers.lookup c = some h →
      ∀ s t, t ∈ h s → measW t ≤ measW s + 1 := by
  intro c h hl
  have hmem := lookup_mem hl
  simp only [playHandlers, List.mem_cons, List.not_mem_nil, or_false,
    Prod.mk.injEq] at hmem
  rcases hmem with ⟨_, rfl⟩ | ⟨_, rfl⟩ | ⟨_, rfl⟩ | ⟨_, rfl⟩ | ⟨_, rfl⟩ |
    ⟨_, rfl⟩ | ⟨_, rfl⟩
  · exact fun s t ht => measW_bounce_land s t ht
  · intro s t ht
    simp only [play_crumbling_vestige, Finset.mem_singleton] at ht
    exact ht ▸ (by exact Nat.le_add_right _ _)
  · intro s t ht
    by_cases hc : 2 < Multiset.card (s.battlefield.filter fun c => isLand c = true)
    · simp only [play_lotus_field, hc, if_true] at ht
      rcases Finset.mem_image.mp ht with ⟨ts, _, rfl⟩
      have := bfW_le_sub s.battlefield ts
      unfold measW
      simp only
      omega
    · simp only [play_lotus_field, hc, if_false] at ht
      rw [Finset.mem_singleton] at ht
      subst ht
      have := bfW_le_sub s.battlefield
        (s.battlefield.filter fun c => isLand c = true)
      unfold measW
      simp only
      omega
  · exact fun s t ht => measW_bounce_land s t ht
  · exact fun s t ht => measW_bounce_land s t ht
  · intro s t ht
    exact (measW_scry1 s t ht).trans (Nat.le_add_right _ _)
  · intro s t ht
    exact (measW_scry1 s t ht).trans (Nat.le_add_right _ _)

theorem measW_fold_tapF (c : CardN) {α : Type} (l : List α) {b : GameState}
    (ss : SSet) (hss : ∀ u ∈ ss, measW u = measW b) :
    ∀ u ∈ l.foldl (fun a _ => appS a (tapF c)) ss, measW u = measW b := by
  induction l generalizing ss with
  | nil => exact hss
  | cons x l ih =>
      refine ih (appS ss (tapF c)) ?_
      intro u hu
      rcases Finset.mem_biUnion.mp hu with ⟨v, hv, huv⟩
      exact (measW_tapF c v u huv).trans (hss v hv)

theorem measW_play_tapped {c : CardN} {s t : GameState} (hc : c ∈ s.hand)
    (ht : t ∈ play_tapped c s) : measW t + wCard c ≤ measW s + vCard c + 1 := by
  simp only [play_tapped] at ht
  have hst : measW ({ s with
      battlefield := c ::ₘ s.battlefield,
      hand := s.hand.erase c } : GameState) + wCard c = measW s + vCard c := by
    have hh := handW_erase hc
    unfold measW
    simp only
    rw [bfW_cons]
    omega
  cases hlk : playHandlers.lookup c with
  | none =>
      rw [hlk] at ht
      have := measW_fold_tapF c (List.range (s.battlefield.count "Amulet of Vigor"))
        (b := ({ s with
          battlefield := c ::ₘ s.battlefield,
          hand := s.hand.erase c } : GameState)) _
        (fun u hu => by
          rw [Finset.mem_singleton] at hu
          rw [hu]) t ht
      omega
  | some h =>
      rw [hlk] at ht
      rcases Finset.mem_biUnion.mp ht with ⟨u, hu, htu⟩
      have h1 := measW_fold_tapF c (List.range (s.battlefield.count "Amulet of Vigor"))
        (b := ({ s with
          battlefield := c ::ₘ s.battlefield,
          hand := s.hand.erase c } : GameState)) _
        (fun u hu => by
          rw [Finset.mem_singleton] at hu
          rw [hu]) u hu
      have h2 := measW_playHandlers c h hlk u t htu
      omega

theorem measW_play_untapped {c : CardN} {s t : GameState} (hc : c ∈ s.hand)
    (ht : t ∈ play_untapped c s) : measW t + wCard c ≤ measW s + vCard c + 1 := by
  simp only [play_untapped] at ht
  have hst : measW ({ s with
      battlefield := c ::ₘ s.battlefield,
      hand := s.hand.erase c } : GameState) + wCard c = measW s + vCard c := by
    have hh := handW_erase hc
    unfold measW
    simp only
    rw [bfW_cons]
    omega
  cases hlk : playHandlers.lookup c with
  | none =>
      rw [hlk] at ht
      have := measW_tapF c _ t ht
      omega
  | some h =>
      rw [hlk] at ht
      rcases Finset.mem_biUnion.mp ht with ⟨u, hu, htu⟩
      have h1 := measW_tapF c _ u hu
      have h2 := measW_playHandlers c h hlk u t htu
      omega

theorem measW_playE {c : CardN} {s : GameState} {S : SSet} {t : GameState}
    (hS : playE c s = some S) (ht : t ∈ S) : measW t + 2 ≤ measW s := by
  unfold playE at hS
  split at hS
  · cases hS
  · split at hS
    · cases hS
      cases ht
    · rename_i hland hguard
      push_neg at hguard
      have hld : 1 ≤ s.land_drops := Nat.one_le_iff_ne_zero.mpr hguard.1
      have hc : c ∈ s.hand := hguard.2
      have hlandb : isLand c = true := by
        unfold isLand
        exact decide_eq_true (not_not.mp hland)
      have hst : measW ({ s with
          notes := s.notes ++ ", play",
          land_drops := s.land_drops - 1 } : GameState) + 2 = measW s := by
        unfold measW
        simp only
        omega
      have hgap := land_gap c hlandb
      split at hS
      · split at hS
        · cases hS
        · cases hS
          split at ht
          · have := measW_play_tapped (s := { s with
              notes := s.notes ++ ", play",
              land_drops := s.land_drops - 1 }) hc ht
            omega
          · have := measW_play_untapped (s := { s with
              notes := s.notes ++ ", play",
              land_drops := s.land_drops - 1 }) hc ht
            omega
      · cases hS
        have := measW_play_tapped (s := { s with
          notes := s.notes ++ ", play",
          land_drops := s.land_drops - 1 }) hc ht
        omega
      · cases hS
        have := measW_play_untapped (s := { s with
          notes := s.notes ++ ", play",
          land_drops := s.land_drops - 1 }) hc ht
        omega

theorem measW_fetchF (c : CardN) (tp : Option Bool) (s t : GameState)
    (ht : t ∈ fetchF c tp s) : measW t ≤ measW s + vCard c + 1 := by
  simp only [fetchF] at ht
  have hadd : measW ({ s with
      hand := c ::ₘ s.hand,
      notes := s.notes ++ ", fetch" } : GameState) = measW s + wCard c := by
    unfold measW
    simp only
    rw [handW_cons]
    omega
  have hcin : c ∈ ({ s with
      hand := c ::ₘ s.hand,
      notes := s.notes ++ ", fetch" } : GameState).hand :=
    Multiset.mem_cons_self c s.hand
  split at ht
  · have := measW_play_tapped hcin ht
    omega
  · have := measW_play_untapped hcin ht
    omega

theorem suspW_append (l : List (CardN × Nat)) (c : CardN) (n : Nat) :
    suspW (l ++ [(c, n)]) = suspW l + n := by
  unfold suspW
  rw [List.map_append, List.sum_append]
  rfl

theorem top_ne_rem {c : CardN} {n : Nat} {s : GameState} (h : c ∈ top n s) :
    1 ≤ s.deck_list.length - s.deck_index := by
  unfold top at h
  have h1 : s.deck_list.drop s.deck_index ≠ [] := by
    intro he
    rw [he, List.take_nil] at h
    cases h
  have h2 : 0 < (s.deck_list.drop s.deck_index).length :=
    List.length_pos.mpr h1
  rw [List.length_drop] at h2
  omega

theorem measW_cast_amulet_of_vigor (s t : GameState)
    (ht : t ∈ cast_amulet_of_vigor s) : measW t ≤ measW s + 1 := by
  rw [cast_amulet_of_vigor, Finset.mem_singleton] at ht
  subst ht
  have hv : vCard "Amulet of Vigor" = 1 := rfl
  unfold measW
  simp only
  rw [bfW_cons, hv]
  omega

theorem measW_cast_ancient_stirrings (s t : GameState)
    (ht : t ∈ cast_ancient_stirrings s) : measW t ≤ measW s := by
  rw [cast_ancient_stirrings] at ht
  refine measW_grabs_top ?_ t ht
  intro c hc
  rw [colorless] at hc
  exact Multiset.mem_coe.mp (Multiset.mem_filter.mp (mem_selBest hc)).1

theorem measW_cast_bond_of_flourishing (s t : GameState)
    (ht : t ∈ cast_bond_of_flourishing s) : measW t ≤ measW s := by
  rw [cast_bond_of_flourishing] at ht
  refine measW_grabs_top ?_ t ht
  intro c hc
  rw [permanents] at hc
  exact Multiset.mem_coe.mp (Multiset.mem_filter.mp (mem_selBest hc)).1

theorem measW_cast_oath_of_nissa (s t : GameState)
    (ht : t ∈ cast_oath_of_nissa s) : measW t ≤ measW s := by
  rw [cast_oath_of_nissa] at ht
  refine measW_grabs_top ?_ t ht
  intro c hc
  rw [creatures_lands] at hc
  exact Multiset.mem_coe.mp (Multiset.mem_filter.mp (mem_selBest hc)).1

theorem measW_cast_once_upon_a_time (s t : GameState)
    (ht : t ∈ cast_once_upon_a_time s) : measW t ≤ measW s := by
  rw [cast_once_upon_a_time] at ht
  refine measW_grabs_top ?_ t ht
  intro c hc
  rw [creatures_lands] at hc
  exact Multiset.mem_coe.mp (Multiset.mem_filter.mp (mem_selBest hc)).1

theorem measW_cast_arboreal_grazer (s t : GameState)
    (ht : t ∈ cast_arboreal_grazer s) : measW t ≤ measW s := by
  rw [cast_arboreal_grazer] at ht
  rcases Finset.mem_biUnion.mp ht with ⟨c, hc, htc⟩
  rw [Multiset.mem_toFinset, Multiset.mem_filter] at hc
  have hb := measW_play_tapped hc.1 htc
  have hg := land_gap c hc.2
  omega

theorem measW_cast_azusa (s t : GameState)
    (ht : t ∈ cast_azusa_lost_but_seeking s) : measW t ≤ measW s + 5 := by
  rw [cast_azusa_lost_but_seeking] at ht
  split at ht
  · cases ht
  · rw [Finset.mem_singleton] at ht
    subst ht
    have hv : vCard "Azusa, Lost but Seeking" = 1 := rfl
    unfold measW
    simp only
    rw [bfW_cons, hv]
    omega

theorem measW_cast_debug_titan (s t : GameState)
    (ht : t ∈ cast_debug_titan s) : measW t ≤ measW s := by
  rw [cast_debug_titan, Finset.mem_singleton] at ht
  subst ht
  exact le_refl _

theorem measW_cast_dryad (s t : GameState)
    (ht : t ∈ cast_dryad_of_the_ilysian_grove s) : measW t ≤ measW s + 3 := by
  rw [cast_dryad_of_the_ilysian_grove, Finset.mem_singleton] at ht
  subst ht
  have hv : vCard "Dryad of the Ilysian Grove" = 1 := rfl
  unfold measW
  simp only
  rw [bfW_cons, hv]
  omega

theorem measW_cast_elvish_rejuvenator (s t : GameState)
    (ht : t ∈ cast_elvish_rejuvenator s) : measW t ≤ measW s := by
  rw [cast_elvish_rejuvenator] at ht
  rcases Finset.mem_biUnion.mp ht with ⟨l, hl, htl⟩
  rw [Multiset.mem_toFinset, lands] at hl
  have hmem := Multiset.mem_filter.mp (mem_selBest hl)
  have htop : l ∈ top 5 s := Multiset.mem_coe.mp hmem.1
  have hland : isLand l = true := hmem.2
  have hrem := top_ne_rem htop
  have hmill := measW_mill_exact 5 s
  have hgrab := measW_grab l (mill 5 s)
  have hcin : l ∈ (grab l (mill 5 s)).hand := Multiset.mem_cons_self l _
  have hb := measW_play_tapped hcin htl
  have hg := land_gap l hland
  have hw := wCard_le l
  omega

theorem measW_cast_explore (s t : GameState)
    (ht : t ∈ cast_explore s) : measW t ≤ measW s + 2 := by
  rw [cast_explore, Finset.mem_singleton] at ht
  subst ht
  have hd := measW_draw 1 ({ s with land_drops := s.land_drops + 1 } : GameState)
  have he : measW ({ s with land_drops := s.land_drops + 1 } : GameState) =
      measW s + 2 := by
    unfold measW
    simp only
    omega
  omega

theorem measW_cast_llanowar (s t : GameState)
    (ht : t ∈ cast_llanowar_visionary s) : measW t ≤ measW s + 1 := by
  rw [cast_llanowar_visionary, Finset.mem_singleton] at ht
  subst ht
  have hd := measW_draw 1
    ({ s with battlefield := "Llanowar Visionary" ::ₘ s.battlefield } : GameState)
  have he : measW ({ s with
      battlefield := "Llanowar Visionary" ::ₘ s.battlefield } : GameState) =
      measW s + 1 := by
    have hv : vCard "Llanowar Visionary" = 1 := rfl
    unfold measW
    simp only
    rw [bfW_cons, hv]
    omega
  omega

theorem measW_cast_opt (s t : GameState)
    (ht : t ∈ cast_opt s) : measW t ≤ measW s := by
  rw [cast_opt] at ht
  rcases Finset.mem_image.mp ht with ⟨u, hu, rfl⟩
  exact (measW_draw 1 u).trans (measW_scry1 s u hu)

theorem measW_cast_primeval_titan (s t : GameState)
    (ht : t ∈ cast_primeval_titan s) : measW t ≤ measW s := by
  rw [cast_primeval_titan, Finset.mem_singleton] at ht
  subst ht
  exact le_refl _

theorem measW_cast_pyretic_ritual (s t : GameState)
    (ht : t ∈ cast_pyretic_ritual s) : measW t ≤ measW s := by
  rw [cast_pyretic_ritual, Finset.mem_singleton] at ht
  subst ht
  exact le_refl _

theorem measW_cast_relic (s t : GameState)
    (ht : t ∈ cast_relic_of_progenitus s) : measW t ≤ measW s + 1 := by
  rw [cast_relic_of_progenitus, Finset.mem_singleton] at ht
  subst ht
  have hv : vCard "Relic of Progenitus" = 1 := rfl
  unfold measW
  simp only
  rw [bfW_cons, hv]
  omega

theorem measW_cast_sakura_tribe_elder (s t : GameState)
    (ht : t ∈ cast_sakura_tribe_elder s) : measW t ≤ measW s + 4 := by
  rw [cast_sakura_tribe_elder] at ht
  have hb := measW_fetchF "Forest" (some true) s t ht
  have hv : vCard "Forest" = 3 := rfl
  omega

theorem measW_cast_sakura_tribe_scout (s t : GameState)
    (ht : t ∈ cast_sakura_tribe_scout s) : measW t ≤ measW s + 1 := by
  rw [cast_sakura_tribe_scout, Finset.mem_singleton] at ht
  subst ht
  have hv : vCard "Sakura-Tribe Scout" = 1 := rfl
  unfold measW
  simp only
  rw [bfW_cons, hv]
  omega

theorem measW_cast_search_for_tomorrow (s t : GameState)
    (ht : t ∈ cast_search_for_tomorrow s) : measW t ≤ measW s + 4 := by
  rw [cast_search_for_tomorrow] at ht
  have hb := measW_fetchF "Forest" none s t ht
  have hv : vCard "Forest" = 3 := rfl
  omega

theorem measW_cast_summer_bloom (s t : GameState)
    (ht : t ∈ cast_summer_bloom s) : measW t ≤ measW s + 6 := by
  rw [cast_summer_bloom, Finset.mem_singleton] at ht
  subst ht
  unfold measW
  simp only
  omega

theorem wCard_green_creature (c : CardN) (h1 : isGreen c = true)
    (h2 : isCreature c = true) : wCard c ≤ 6 := by
  unfold wCard
  split
  · omega
  · exact absurd h2 (by decide)
  · exact absurd h2 (by decide)
  · exact absurd h2 (by decide)
  · omega
  · omega
  · omega
  · omega

theorem measW_set_debt (u : GameState) (m : Mana) :
    measW ({ u with mana_debt := m } : GameState) = measW u := rfl

theorem measW_cast_summoners_pact (s t : GameState)
    (ht : t ∈ cast_summoners_pact s) : measW t ≤ measW s + 6 := by
  rw [cast_summoners_pact] at ht
  rcases Finset.mem_image.mp ht with ⟨u, hu, rfl⟩
  rcases Finset.mem_image.mp hu with ⟨c, hc, rfl⟩
  have hgc : c ∈ green_creatures (Multiset.ofList s.deck_list) :=
    Multiset.mem_toFinset.mp (Finset.mem_filter.mp hc).1
  rw [green_creatures, Multiset.mem_filter] at hgc
  have hw := wCard_green_creature c hgc.2.1 hgc.2.2
  have hg := measW_grab c s
  rw [measW_set_debt]
  omega

theorem measW_cast_through_the_breach (s t : GameState)
    (ht : t ∈ cast_through_the_breach s) : measW t ≤ measW s := by
  rw [cast_through_the_breach] at ht
  split at ht
  · cases ht
  · rw [Finset.mem_singleton] at ht
    subst ht
    exact le_refl _

theorem measW_cast_uro {s : GameState} {S : SSet} {t : GameState}
    (hS : cast_uro s = some S) (ht : t ∈ S) : measW t + 2 ≤ measW s := by
  rw [cast_uro] at hS
  rcases (mem_unionO _ _ hS t).mp ht with ⟨S2, hmem, htS2⟩
  rcases List.mem_map.mp hmem with ⟨l, _, hplay⟩
  have hp := measW_playE hplay htS2
  have hd := measW_draw 1 s
  omega

theorem measW_castHandlers :
    ∀ c h, castHandlers.lookup c = some h →
      ∀ s S t, h s = some S → t ∈ S → measW t + 1 ≤ measW s + wCard c := by
  intro c h hl
  have hmem := lookup_mem hl
  simp only [castHandlers, List.mem_cons, List.not_mem_nil, or_false,
    Prod.mk.injEq] at hmem
  rcases hmem with ⟨rfl, rfl⟩ | hmem
  · intro s S t hS ht
    cases hS
    have hb := measW_cast_oath_of_nissa s t ht
    have hw : wCard "Adventurous Impulse" = 4 := rfl
    omega
  rcases hmem with ⟨rfl, rfl⟩ | hmem
  · intro s S t hS ht
    cases hS
    have hb := measW_cast_amulet_of_vigor s t ht
    have hw : wCard "Amulet of Vigor" = 4 := rfl
    omega
  rcases hmem with ⟨rfl, rfl⟩ | hmem
  · intro s S t hS ht
    cases hS
    have hb := measW_cast_ancient_stirrings s t ht
    have hw : wCard "Ancient Stirrings" = 4 := rfl
    omega
  rcases hmem with ⟨rfl, rfl⟩ | hmem
  · intro s S t hS ht
    cases hS
    have hb := measW_cast_arboreal_grazer s t ht
    have hw : wCard "Arboreal Grazer" = 4 := rfl
    omega
  rcases hmem with ⟨rfl, rfl⟩ | hmem
  · intro s S t hS ht
    cases hS
    have hb := measW_cast_azusa s t ht
    have hw : wCard "Azusa, Lost but Seeking" = 6 := rfl
    omega
  rcases hmem with ⟨rfl, rfl⟩ | hmem
  · intro s S t hS ht
    cases hS
    have hb := measW_cast_sakura_tribe_elder s t ht
    have hw : wCard "Beneath the Sands" = 6 := rfl
    omega
  rcases hmem with ⟨rfl, rfl⟩ | hmem
  · intro s S t hS ht
    cases hS
    have hb := measW_cast_bond_of_flourishing s t ht
    have hw : wCard "Bond of Flourishing" = 4 := rfl
    omega
  rcases hmem with ⟨rfl, rfl⟩ | hmem
  · intro s S t hS ht
    cases hS
    have hb := measW_cast_debug_titan s t ht
    have hw : wCard "Debug Titan" = 4 := rfl
    omega
  rcases hmem with ⟨rfl, rfl⟩ | hmem
  · intro s S t hS ht
    cases hS
    have hb := measW_cast_dryad s t ht
    have hw : wCard "Dryad of the Ilysian Grove" = 4 := rfl
    omega
  rcases hmem with ⟨rfl, rfl⟩ | hmem
  · intro s S t hS ht
    cases hS
    have hb := measW_cast_elvish_rejuvenator s t ht
    have hw : wCard "Elvish Rejuvenator" = 4 := rfl
    omega
  rcases hmem with ⟨rfl, rfl⟩ | hmem
  · intro s S t hS ht
    cases hS
    have hb := measW_cast_explore s t ht
    have hw : wCard "Explore" = 4 := rfl
    omega
  rcases hmem with ⟨rfl, rfl⟩ | hmem
  · intro s S t hS ht
    cases hS
    have hb := measW_cast_explore s t ht
    have hw : wCard "Growth Spiral" = 4 := rfl
    omega
  rcases hmem with ⟨rfl, rfl⟩ | hmem
  · intro s S t hS ht
    cases hS
    have hb := measW_cast_llanowar s t ht
    have hw : wCard "Llanowar Visionary" = 4 := rfl
    omega
  rcases hmem with ⟨rfl, rfl⟩ | hmem
  · intro s S t hS ht
    cases hS
    have hb := measW_cast_oath_of_nissa s t ht
    have hw : wCard "Oath of Nissa" = 4 := rfl
    omega
  rcases hmem with ⟨rfl, rfl⟩ | hmem
  · intro s S t hS ht
    cases hS
    have hb := measW_cast_once_upon_a_time s t ht
    have hw : wCard "Once Upon a Time" = 4 := rfl
    omega
  rcases hmem with ⟨rfl, rfl⟩ | hmem
  · intro s S t hS ht
    cases hS
    have hb := measW_cast_opt s t ht
    have hw : wCard "Opt" = 4 := rfl
    omega
  rcases hmem with ⟨rfl, rfl⟩ | hmem
  · intro s S t hS ht
    cases hS
    have hb := measW_cast_primeval_titan s t ht
    have hw : wCard "Primeval Titan" = 4 := rfl
    omega
  rcases hmem with ⟨rfl, rfl⟩ | hmem
  · intro s S t hS ht
    cases hS
    have hb := measW_cast_pyretic_ritual s t ht
    have hw : wCard "Pyretic Ritual" = 4 := rfl
    omega
  rcases hmem with ⟨rfl, rfl⟩ | hmem
  · intro s S t hS ht
    cases hS
    have hb := measW_cast_relic s t ht
    have hw : wCard "Relic of Progenitus" = 4 := rfl
    omega
  rcases hmem with ⟨rfl, rfl⟩ | hmem
  · intro s S t hS ht
    cases hS
    have hb := measW_cast_sakura_tribe_elder s t ht
    have hw : wCard "Sakura-Tribe Elder" = 6 := rfl
    omega
  rcases hmem with ⟨rfl, rfl⟩ | hmem
  · intro s S t hS ht
    cases hS
    have hb := measW_cast_sakura_tribe_scout s t ht
    have hw : wCard "Sakura-Tribe Scout" = 4 := rfl
    omega
  rcases hmem with ⟨rfl, rfl⟩ | hmem
  · intro s S t hS ht
    cases hS
    have hb := measW_cast_search_for_tomorrow s t ht
    have hw : wCard "Search for Tomorrow" = 6 := rfl
    omega
  rcases hmem with ⟨rfl, rfl⟩ | hmem
  · intro s S t hS ht
    cases hS
    have hb := measW_cast_summer_bloom s t ht
    have hw : wCard "Summer Bloom" = 7 := rfl
    omega
  rcases hmem with ⟨rfl, rfl⟩ | hmem
  · intro s S t hS ht
    cases hS
    have hb := measW_cast_summoners_pact s t ht
    have hw : wCard "Summoners Pact" = 7 := rfl
    omega
  rcases hmem with ⟨rfl, rfl⟩ | hmem
  · intro s S t hS ht
    cases hS
    have hb := measW_cast_through_the_breach s t ht
    have hw : wCard "Through the Breach" = 4 := rfl
    omega
  obtain ⟨rfl, rfl⟩ := hmem
  intro s S t hS ht
  have hb := measW_cast_uro hS ht
  have hw : wCard "Uro, Titan of Natures Wrath" = 4 := rfl
  omega

theorem measW_cycle_once_upon_a_time (s t : GameState)
    (ht : t ∈ cycle_once_upon_a_time s) : measW t ≤ measW s := by
  rw [cycle_once_upon_a_time] at ht
  split at ht
  · cases ht
  · exact measW_cast_once_upon_a_time
      ({ s with spells_cast := s.spells_cast + 1 } : GameState) t ht

theorem measW_cycle_search_for_tomorrow (s t : GameState)
    (ht : t ∈ cycle_search_for_tomorrow s) : measW t ≤ measW s + 2 := by
  rw [cycle_search_for_tomorrow, Finset.mem_singleton] at ht
  subst ht
  unfold suspendF measW
  simp only
  rw [suspW_append]
  omega

theorem measW_cycle_tolaria_west (s t : GameState)
    (ht : t ∈ cycle_tolaria_west s) : measW t ≤ measW s + 7 := by
  rw [cycle_tolaria_west, grabs] at ht
  rcases Finset.mem_image.mp ht with ⟨g, hg, rfl⟩
  have hopt := (Multiset.mem_filter.mp (Multiset.mem_toFinset.mp hg)).2
  have hw : wCard g ≤ 7 := by
    rcases Multiset.mem_cons.mp hopt with rfl | hopt2
    · decide
    · rw [Multiset.mem_singleton] at hopt2
      subst hopt2
      decide
  have hgr := measW_grab g s
  omega

theorem measW_cycleHandlers :
    ∀ c h, cycleHandlers.lookup c = some h →
      ∀ s t, t ∈ h s → measW t + 1 ≤ measW s + wCard c := by
  intro c h hl
  have hmem := lookup_mem hl
  simp only [cycleHandlers, List.mem_cons, List.not_mem_nil, or_false,
    Prod.mk.injEq] at hmem
  rcases hmem with ⟨rfl, rfl⟩ | ⟨rfl, rfl⟩ | ⟨rfl, rfl⟩ | ⟨rfl, rfl⟩ |
    ⟨rfl, rfl⟩ | ⟨rfl, rfl⟩ | ⟨rfl, rfl⟩
  · intro s t ht
    rw [cycle_beneath_the_sands, Finset.mem_singleton] at ht
    subst ht
    have hb := measW_draw 1 s
    have hw : wCard "Beneath the Sands" = 6 := rfl
    omega
  · intro s t ht
    rw [cycle_ketria_triome, Finset.mem_singleton] at ht
    subst ht
    have hb := measW_draw 1 s
    have hw : wCard "Ketria Triome" = 4 := rfl
    omega
  · intro s t ht
    have hb := measW_cycle_once_upon_a_time s t ht
    have hw : wCard "Once Upon a Time" = 4 := rfl
    omega
  · intro s t ht
    have hb := measW_cycle_search_for_tomorrow s t ht
    have hw : wCard "Search for Tomorrow" = 6 := rfl
    omega
  · intro s t ht
    rw [cycle_simian_spirit_guide, Finset.mem_singleton] at ht
    subst ht
    have hb : measW (add_mana mR s) = measW s := rfl
    have hw : wCard "Simian Spirit Guide" = 4 := rfl
    omega
  · intro s t ht
    have hb := measW_cycle_tolaria_west s t ht
    have hw : wCard "Tolaria West" = 8 := rfl
    omega
  · intro s t ht
    rw [cycle_tranquil_thicket, Finset.mem_singleton] at ht
    subst ht
    have hb := measW_draw 1 s
    have hw : wCard "Tranquil Thicket" = 4 := rfl
    omega

theorem measW_sacrificeHandlers :
    ∀ c h, sacrificeHandlers.lookup c = some h →
      ∀ s t, t ∈ h s → measW t ≤ measW s := by
  intro c h hl
  have hmem := lookup_mem hl
  simp only [sacrificeHandlers, List.mem_cons, List.not_mem_nil, or_false,
    Prod.mk.injEq] at hmem
  rcases hmem with ⟨rfl, rfl⟩ | ⟨rfl, rfl⟩
  · intro s t ht
    rw [sacrifice_castle_garenbrig] at ht
    split at ht
    · cases ht
    · rw [Finset.mem_singleton] at ht
      subst ht
      exact le_refl _
  · intro s t ht
    rw [sacrifice_relic_of_progenitus, Finset.mem_singleton] at ht
    subst ht
    exact measW_draw 1 s

theorem measW_castE {c : CardN} {s : GameState} {S : SSet} {t : GameState}
    (hS : castE c s = some S) (ht : t ∈ S) : measW t < measW s := by
  unfold castE at hS
  split at hS
  · cases hS
    exact absurd ht (Finset.not_mem_empty t)
  · rename_i k hk
    split at hS
    · cases hS
      exact absurd ht (Finset.not_mem_empty t)
    · rename_i hin
      rw [not_not] at hin
      split at hS
      · cases hS
        exact absurd ht (Finset.not_mem_empty t)
      · split at hS
        · cases hS
        · rename_i h hlk
          rcases (mem_appO hS t).mp ht with ⟨u, hu, S2, hS2, htS2⟩
          have h1 := measW_payF k _ u hu
          have h2 := measW_castHandlers c h hlk u S2 t hS2 htS2
          have h3 : measW ({ s with
              hand := s.hand.erase c,
              notes := s.notes ++ ", cast",
              spells_cast := s.spells_cast + 1 } : GameState) + wCard c =
              measW s := by
            have hh := handW_erase hin
            unfold measW
            simp only
            omega
          omega

theorem measW_cycleT {c : CardN} {s t : GameState}
    (ht : t ∈ cycleT c s) : measW t < measW s := by
  unfold cycleT at ht
  split at ht
  · exact absurd ht (Finset.not_mem_empty t)
  · rename_i k hk
    split at ht
    · exact absurd ht (Finset.not_mem_empty t)
    · rename_i hin
      rw [not_not] at hin
      split at ht
      · exact absurd ht (Finset.not_mem_empty t)
      · have h3 : measW ({ s with
            hand := s.hand.erase c,
            notes := s.notes ++ ", cycle" } : GameState) + wCard c =
            measW s := by
          have hh := handW_erase hin
          unfold measW
          simp only
          omega
        have hwp := wCard_pos c
        cases hlk : cycleHandlers.lookup c with
        | none =>
            rw [hlk] at ht
            have h1 := measW_payF k _ t ht
            omega
        | some h =>
            rw [hlk] at ht
            rcases Finset.mem_biUnion.mp ht with ⟨u, hu, htu⟩
            have h1 := measW_payF k _ u hu
            have h2 := measW_cycleHandlers c h hlk u t htu
            omega

theorem measW_sacrificeE {c : CardN} {s : GameState} {S : SSet} {t : GameState}
    (hS : sacrificeE c s = some S) (ht : t ∈ S) : measW t < measW s := by
  unfold sacrificeE at hS
  split at hS
  · cases hS
    exact absurd ht (Finset.not_mem_empty t)
  · rename_i k hk
    split at hS
    · cases hS
      exact absurd ht (Finset.not_mem_empty t)
    · rename_i hin
      rw [not_not] at hin
      split at hS
      · cases hS
        exact absurd ht (Finset.not_mem_empty t)
      · cases hlk : sacrificeHandlers.lookup c with
        | none =>
            rw [hlk] at hS
            cases hS
        | some h =>
            rw [hlk] at hS
            simp only [unsafe_getattr] at hS
            cases hS
            rcases Finset.mem_biUnion.mp ht with ⟨u, hu, htu⟩
            have h1 := measW_payF k _ u hu
            have h2 := measW_sacrificeHandlers c h hlk u t htu
            have h3 : measW ({ s with
                battlefield := s.battlefield.erase c,
                notes := s.notes ++ ", sacrifice" } : GameState) + vCard c =
                measW s := by
              have hh := bfW_erase hin
              unfold measW
              simp only
              omega
            have hvp := vCard_pos c
            omega

theorem measW_next_statesE {mt : Nat} {s : GameState} {T : SSet} {t : GameState}
    (hterm : ¬ terminal s) (hT : next_statesE mt s = some T) (ht : t ∈ T)
    (hturn : t.turn = s.turn) : measW t < measW s := by
  unfold next_statesE at hT
  rw [if_neg hterm] at hT
  have hpass : ∀ S, some S ∈ passPart mt s → t ∈ S → False := by
    intro S hmem htS
    unfold passPart at hmem
    split at hmem
    · rw [List.mem_singleton] at hmem
      have := (frame_pass_turnE hmem.symm t htS).2.2.2
      omega
    · cases hmem
  have hplay : ∀ S, some S ∈ playPart s → t ∈ S → measW t < measW s := by
    intro S hmem htS
    rcases List.mem_map.mp hmem with ⟨c, _, hc⟩
    have := measW_playE hc htS
    omega
  have hcast : ∀ S, some S ∈ castPart s → t ∈ S → measW t < measW s := by
    intro S hmem htS
    rcases List.mem_map.mp hmem with ⟨c, _, hc⟩
    exact measW_castE hc htS
  have hcyc : ∀ S, some S ∈ cyclePart s → t ∈ S → measW t < measW s := by
    intro S hmem htS
    rcases List.mem_map.mp hmem with ⟨c, _, hc⟩
    cases hc
    exact measW_cycleT htS
  have hsac : ∀ S, some S ∈ sacPart s → t ∈ S → measW t < measW s := by
    intro S hmem htS
    rcases List.mem_map.mp hmem with ⟨c, _, hc⟩
    exact measW_sacrificeE hc htS
  split at hT
  · rcases (mem_unionO _ _ hT t).mp ht with ⟨S, hmem, htS⟩
    rcases List.mem_append.mp hmem with hmem2 | hmem2
    · rcases List.mem_append.mp hmem2 with hmem3 | hmem3
      · exact absurd (hpass S hmem3 htS) not_false
      · exact hplay S hmem3 htS
    · rw [List.mem_singleton] at hmem2
      cases hmem2
      exact measW_cycleT htS
  · rcases (mem_unionO _ _ hT t).mp ht with ⟨S, hmem, htS⟩
    rcases List.mem_append.mp hmem with hmem2 | hmem2
    · rcases List.mem_append.mp hmem2 with hmem3 | hmem3
      · rcases List.mem_append.mp hmem3 with hmem4 | hmem4
        · rcases List.mem_append.mp hmem4 with hmem5 | hmem5
          · exact absurd (hpass S hmem5 htS) not_false
          · exact hplay S hmem5 htS
        · exact hcast S hmem4 htS
      · exact hcyc S hmem3 htS
    · exact hsac S hmem2 htS

theorem next_turn_gen_spec :
    ∀ (n mt ct : Nat) (s : GameState) (Y1 Y2 : SSet) (e : Bool),
      next_turn_gen n mt ct s = some (Y1, Y2, e) →
      ∀ t, t ∈ Y1 ∪ Y2 → terminal t ∨ ct < t.turn := by
  intro n
  induction n with
  | zero =>
      intro mt ct s Y1 Y2 e h
      cases h
  | succ n ih =>
      intro mt ct s Y1 Y2 e h t ht
      by_cases hterm : terminal s
      · rw [next_turn_gen, if_pos hterm] at h
        cases h
        rw [Finset.mem_union, Finset.mem_singleton] at ht
        rcases ht with rfl | ht2
        · exact Or.inl hterm
        · exact absurd ht2 (Finset.not_mem_empty t)
      · cases hT : next_statesE mt s with
        | none =>
            rw [next_turn_gen, if_neg hterm] at h
            simp only [hT] at h
            cases h
            rw [Finset.mem_union] at ht
            rcases ht with ht2 | ht2 <;> exact absurd ht2 (Finset.not_mem_empty t)
        | some T =>
            rw [next_turn_gen, if_neg hterm] at h
            simp only [hT] at h
            split at h
            · rename_i hg
              cases h
              rw [Finset.mem_union] at ht
              rcases ht with ht2 | ht2
              · rcases Finset.mem_biUnion.mp ht2 with ⟨u, hu, htu⟩
                by_cases h1 : terminal u
                · rw [if_pos h1] at htu
                  simp only [Option.getD_some] at htu
                  rw [Finset.mem_singleton] at htu
                  subst htu
                  exact Or.inl h1
                · rw [if_neg h1] at htu
                  by_cases h2 : ct < u.turn
                  · rw [if_pos h2] at htu
                    simp only [Option.getD_some] at htu
                    exact absurd htu (Finset.not_mem_empty t)
                  · rw [if_neg h2] at htu
                    have hs := hg u hu
                    rw [if_neg h1, if_neg h2] at hs
                    rcases Option.isSome_iff_exists.mp hs with ⟨⟨Z1, Z2, e2⟩, hz⟩
                    rw [hz] at htu
                    simp only [Option.getD_some] at htu
                    exact ih mt ct u Z1 Z2 e2 hz t
                      (Finset.mem_union.mpr (Or.inl htu))
              · rcases Finset.mem_biUnion.mp ht2 with ⟨u, hu, htu⟩
                by_cases h1 : terminal u
                · rw [if_pos h1] at htu
                  simp only [Option.getD_some] at htu
                  exact absurd htu (Finset.not_mem_empty t)
                · rw [if_neg h1] at htu
                  by_cases h2 : ct < u.turn
                  · rw [if_pos h2] at htu
                    simp only [Option.getD_some] at htu
                    rw [Finset.mem_singleton] at htu
                    subst htu
                    exact Or.inr h2
                  · rw [if_neg h2] at htu
                    have hs := hg u hu
                    rw [if_neg h1, if_neg h2] at hs
                    rcases Option.isSome_iff_exists.mp hs with ⟨⟨Z1, Z2, e2⟩, hz⟩
                    rw [hz] at htu
                    simp only [Option.getD_some] at htu
                    exact ih mt ct u Z1 Z2 e2 hz t
                      (Finset.mem_union.mpr (Or.inr htu))
            · cases h

theorem next_turn_gen_mono :
    ∀ (n m : Nat), n ≤ m → ∀ (mt ct : Nat) (s : GameState),
      (next_turn_gen n mt ct s).isSome = true →
      (next_turn_gen m mt ct s).isSome = true := by
  intro n
  induction n with
  | zero =>
      intro m _ mt ct s h
      cases h
  | succ n ih =>
      intro m hnm mt ct s h
      match m, hnm with
      | m + 1, hnm =>
        have hnm2 : n ≤ m := Nat.succ_le_succ_iff.mp hnm
        by_cases hterm : terminal s
        · rw [next_turn_gen, if_pos hterm]
          simp
        · cases hT : next_statesE mt s with
          | none =>
              rw [next_turn_gen, if_neg hterm]
              simp only [hT]
              simp
          | some T =>
              rw [next_turn_gen, if_neg hterm] at h ⊢
              simp only [hT] at h ⊢
              split at h
              · rename_i hg
                have hg2 : ∀ t ∈ T,
                    ((if terminal t then some ({t}, (∅ : SSet), false)
                      else if ct < t.turn then some (∅, ({t} : SSet), false)
                      else next_turn_gen m mt ct t)).isSome = true := by
                  intro u hu
                  have hs := hg u hu
                  by_cases h1 : terminal u
                  · rw [if_pos h1]
                    simp
                  · rw [if_neg h1] at hs ⊢
                    by_cases h2 : ct < u.turn
                    · rw [if_pos h2]
                      simp
                    · rw [if_neg h2] at hs ⊢
                      exact ih m hnm2 mt ct u hs
                rw [if_pos hg2]
                simp
              · cases h

theorem exists_uniform_fuel {α : Type} [DecidableEq α] {T : Finset α}
    {P : Nat → α → Prop}
    (mono : ∀ n m t, n ≤ m → P n t → P m t)
    (h : ∀ t ∈ T, ∃ n, P n t) : ∃ N, ∀ t ∈ T, P N t := by
  classical
  induction T using Finset.induction_on with
  | empty => exact ⟨0, fun t ht => absurd ht (Finset.not_mem_empty t)⟩
  | insert hnotmem ih =>
      rename_i a T2
      rcases h a (Finset.mem_insert_self a _) with ⟨na, hna⟩
      rcases ih (fun t ht => h t (Finset.mem_insert_of_mem ht)) with ⟨N, hN⟩
      refine ⟨max na N, ?_⟩
      intro t ht
      rcases Finset.mem_insert.mp ht with rfl | ht2
      · exact mono na _ t (le_max_left _ _) hna
      · exact mono N _ t (le_max_right _ _) (hN t ht2)

theorem next_turn_gen_total (w : Nat) :
    ∀ (mt ct : Nat) (s : GameState), s.turn = ct → measW s < w →
      ∃ n, (next_turn_gen n mt ct s).isSome = true := by
  induction w with
  | zero =>
      intro mt ct s _ hw
      omega
  | succ w ihw =>
      intro mt ct s hst hw
      by_cases hterm : terminal s
      · refine ⟨1, ?_⟩
        rw [next_turn_gen, if_pos hterm]
        simp
      · cases hT : next_statesE mt s with
        | none =>
            refine ⟨1, ?_⟩
            rw [next_turn_gen, if_neg hterm]
            simp only [hT]
            simp
        | some T =>
            have hptw : ∀ t ∈ T, ∃ n,
                ((if terminal t then some ({t}, (∅ : SSet), false)
                  else if ct < t.turn then some (∅, ({t} : SSet), false)
                  else next_turn_gen n mt ct t)).isSome = true := by
              intro u hu
              by_cases h1 : terminal u
              · exact ⟨0, by rw [if_pos h1]; simp⟩
              · by_cases h2 : ct < u.turn
                · exact ⟨0, by rw [if_neg h1, if_pos h2]; simp⟩
                · have hfr := (frame_next_statesE hT u hu).2.2.2
                  have hut : u.turn = ct := by omega
                  have hlt : measW u < measW s :=
                    measW_next_statesE hterm hT hu (by omega)
                  rcases ihw mt ct u hut (by omega) with ⟨n, hn⟩
                  exact ⟨n, by rw [if_neg h1, if_neg h2]; exact hn⟩
            have hmono : ∀ n m t, n ≤ m →
                ((if terminal t then some ({t}, (∅ : SSet), false)
                  else if ct < t.turn then some (∅, ({t} : SSet), false)
                  else next_turn_gen n mt ct t)).isSome = true →
                ((if terminal t then some ({t}, (∅ : SSet), false)
                  else if ct < t.turn then some (∅, ({t} : SSet), false)
                  else next_turn_gen m mt ct t)).isSome = true := by
              intro n m u hnm hs
              by_cases h1 : terminal u
              · rw [if_pos h1]
                simp
              · rw [if_neg h1] at hs ⊢
                by_cases h2 : ct < u.turn
                · rw [if_pos h2]
                  simp
                · rw [if_neg h2] at hs ⊢
                  exact next_turn_gen_mono n m hnm mt ct u hs
            rcases exists_uniform_fuel hmono hptw with ⟨N, hN⟩
            refine ⟨N + 1, ?_⟩
            rw [next_turn_gen, if_neg hterm]
            simp only [hT]
            rw [if_pos hN]
            simp

theorem next_turnF_total (mt : Nat) (s : GameState) :
    ∃ n, (next_turnF n mt s).isSome = true := by
  by_cases hcap : s.turn = mt
  · exact ⟨0, by rw [next_turnF, if_pos hcap]; simp⟩
  · rcases next_turn_gen_total (measW s + 1) mt s.turn s rfl (by omega) with ⟨n, hn⟩
    exact ⟨n, by rw [next_turnF, if_neg hcap]; exact hn⟩

theorem next_turnF_mono (n m : Nat) (hnm : n ≤ m) (mt : Nat) (s : GameState)
    (h : (next_turnF n mt s).isSome = true) :
    (next_turnF m mt s).isSome = true := by
  rw [next_turnF] at h ⊢
  by_cases hcap : s.turn = mt
  · rw [if_pos hcap]
    simp
  · rw [if_neg hcap] at h ⊢
    exact next_turn_gen_mono n m hnm mt s.turn s h

theorem next_turnF_spec (n mt : Nat) (s : GameState) (Y1 Y2 : SSet) (e : Bool)
    (h : next_turnF n mt s = some (Y1, Y2, e)) :
    ∀ t, t ∈ Y1 ∪ Y2 → terminal t ∨ s.turn < t.turn := by
  rw [next_turnF] at h
  by_cases hcap : s.turn = mt
  · rw [if_pos hcap] at h
    cases h
    intro t ht
    rw [Finset.mem_union] at ht
    rcases ht with ht2 | ht2 <;> exact absurd ht2 (Finset.not_mem_empty t)
  · rw [if_neg hcap] at h
    exact next_turn_gen_spec n mt s.turn s Y1 Y2 e h

/-- Claim C8: in the absence of the budget cap, GameStates.next_turn on
any finite state set terminates and returns a finite set in which every
member either has turn strictly greater than its producing caller's turn
or is terminal (done or overflowed).  Termination is rendered as fuel
sufficiency: some finite fuel makes the fueled worklist loop return
(rather than run out), and for every sufficient fuel each member of the
returned set is terminal or turn-advanced.  The model collects a
terminal yield without re-expanding it, which is exactly the prefix of
the generator the consumer observes before bailing. -/
theorem claim_C8 (mt : Nat) (ss : Finset GameState) :
    (∃ N Y, gs_next_turnF N mt ss = some Y) ∧
    (∀ N Y, gs_next_turnF N mt ss = some Y →
      ∀ t ∈ Y, terminal t ∨ ∃ s ∈ ss, s.turn < t.turn) := by
  constructor
  · have hmono : ∀ n m t, n ≤ m → (next_turnF n mt t).isSome = true →
        (next_turnF m mt t).isSome = true :=
      fun n m t hnm h => next_turnF_mono n m hnm mt t h
    have hpt : ∀ t ∈ ss, ∃ n, (next_turnF n mt t).isSome = true :=
      fun t _ => next_turnF_total mt t
    rcases exists_uniform_fuel hmono hpt with ⟨N, hN⟩
    refine ⟨N, ss.biUnion fun s =>
      ((next_turnF N mt s).getD (∅, ∅, false)).1 ∪
        ((next_turnF N mt s).getD (∅, ∅, false)).2.1, ?_⟩
    unfold gs_next_turnF
    rw [if_pos hN]
  · intro N Y h t ht
    rw [gs_next_turnF] at h
    split at h
    · rename_i hg
      cases h
      rcases Finset.mem_biUnion.mp ht with ⟨s, hs, hts⟩
      have hsome := hg s hs
      rcases Option.isSome_iff_exists.mp hsome with ⟨⟨Y1, Y2, e⟩, hy⟩
      rw [hy] at hts
      simp only [Option.getD_some] at hts
      rcases next_turnF_spec N mt s Y1 Y2 e hy t hts with hterm | hadv
      · exact Or.inl hterm
      · exact Or.inr ⟨s, hs, hadv⟩
    · cases h

/-- Concrete check of claim C8: a one-member set holding a solved state;
the driver returns it unchanged with fuel 1, and the claim instantiates
to its disjunction at that member. -/
theorem claim_C8_witness :
    gs_next_turnF 1 2 {c8s} = some ({c8s} ∪ ∅) ∧
    (terminal c8s ∨ ∃ s ∈ ({c8s} : Finset GameState), s.turn < c8s.turn) :=
  ⟨by decide, (claim_C8 2 {c8s}).2 1 ({c8s} ∪ ∅) (by decide) c8s (by decide)⟩

end AmuletModel
